import Mathlib

/-!
Verification of the OpenMDAO perturbation/coloring/sparse-Jacobian core.

Shallow embedding of the relevant source functions:
  * `openmdao/utils/array_utils.py` : `evenly_distrib_idxs`, `ValueRepeater`
  * `openmdao/approximation_schemes/approximation_scheme.py` : `ApproximationScheme._run_point`
  * `openmdao/jacobians/jacobian.py` : `__getitem__`, `__setitem__`, `set_col`,
    `_setup_index_maps`, `_randomize_subjac`
  * `openmdao/vectors/petsc_vector.py` : `_init_dup_inds`, `_get_nodup`, `get_norm`, `dot`

Machine floats are modelled by exact rationals (`ℚ`); numpy arrays by lists;
dicts of named views by association lists.
-/

namespace OpenMDAO

/-! ## array_utils.evenly_distrib_idxs

Python source:
```
base, leftover = divmod(arr_size, num_divisions)
sizes = np.full(num_divisions, base, dtype=INT_DTYPE)
sizes[:leftover] += 1
offsets = np.zeros(num_divisions, dtype=INT_DTYPE)
offsets[1:] = np.cumsum(sizes)[:-1]
```
`sizes` is `base` everywhere with `+1` on the first `leftover` entries;
`offsets[i]` is the sum of the sizes before position `i` (the exclusive
prefix sum that `np.cumsum(sizes)[:-1]` shifted by one computes). -/

def evenly_distrib_idxs (num_divisions arr_size : Nat) : List Nat × List Nat :=
  let base := arr_size / num_divisions
  let leftover := arr_size % num_divisions
  let sizes := (List.range num_divisions).map (fun i => if i < leftover then base + 1 else base)
  let offsets := (List.range num_divisions).map (fun i => (sizes.take i).sum)
  (sizes, offsets)

/-! ## array_utils.ValueRepeater.__getitem__

Python source:
```
i = idx
if idx < 0:
    idx += self.size
if idx >= self.size:
    raise IndexError(...)
return self.val
```
The negative branch adds `size` once; the bounds check is only against the
upper bound. -/

structure ValueRepeater (α : Type) where
  val : α
  size : Nat

def ValueRepeater.getitem {α : Type} (vr : ValueRepeater α) (idx : Int) : Except String α :=
  if (if idx < 0 then idx + vr.size else idx) ≥ (vr.size : Int) then
    .error ("index " ++ toString idx ++ " is out of bounds for size " ++ toString vr.size)
  else
    .ok vr.val

end OpenMDAO

namespace OpenMDAO

/-- Sum of the first `n` values of `fun i => if i < L then base + 1 else base`. -/
theorem sum_range_if_lt (base L n : Nat) :
    ((List.range n).map (fun i => if i < L then base + 1 else base)).sum
      = n * base + min L n := by
  induction n with
  | zero => simp
  | succ n ih =>
      rw [List.range_succ, List.map_append, List.sum_append]
      simp only [List.map_cons, List.map_nil, List.sum_cons, List.sum_nil]
      have hm : (n + 1) * base = n * base + base := by ring
      rcases Nat.lt_or_ge n L with h | h
      · rw [if_pos h, ih]
        omega
      · rw [if_neg (by omega), ih]
        omega

/-- Indexing into `(List.range n).map f`. -/
theorem getD_map_range {α : Type} (f : Nat → α) (d : α) {i n : Nat} (hi : i < n) :
    ((List.range n).map f).getD i d = f i := by
  rw [List.getD_eq_getElem?_getD, List.getElem?_map, List.getElem?_range hi]
  rfl

/-- Prefix-sum step: the sum of the first `k + 1` entries adds entry `k`. -/
theorem sum_take_succ_getD (l : List Nat) (k : Nat) (hk : k < l.length) :
    (l.take (k + 1)).sum = (l.take k).sum + l.getD k 0 := by
  rw [List.take_succ, List.sum_append, List.getD_eq_getElem?_getD,
      List.getElem?_eq_getElem hk]
  simp

/-- **C9**: for `num_divisions = n ≥ 1` and any `arr_size = s`,
`evenly_distrib_idxs n s` returns length-`n` arrays `(sizes, offsets)` with
`sizes.sum = s`; each size is `s / n` or `s / n + 1`, the first `s % n`
divisions receiving the extra entry; `offsets[0] = 0` and
`offsets[i] = offsets[i-1] + sizes[i-1]` for `0 < i < n`. -/
theorem evenly_distrib_idxs_spec (n s : Nat) (hn : 1 ≤ n) :
    (evenly_distrib_idxs n s).1.length = n ∧ (evenly_distrib_idxs n s).2.length = n ∧
    (evenly_distrib_idxs n s).1.sum = s ∧
    (∀ i, i < n →
      (evenly_distrib_idxs n s).1.getD i 0 = (if i < s % n then s / n + 1 else s / n)) ∧
    (evenly_distrib_idxs n s).2.getD 0 0 = 0 ∧
    (∀ i, 0 < i → i < n →
      (evenly_distrib_idxs n s).2.getD i 0
        = (evenly_distrib_idxs n s).2.getD (i - 1) 0
          + (evenly_distrib_idxs n s).1.getD (i - 1) 0) := by
  simp only [evenly_distrib_idxs]
  refine ⟨by simp, by simp, ?_, ?_, ?_, ?_⟩
  · -- total: n * (s / n) + min (s % n) n = s
    rw [sum_range_if_lt]
    have hmod : s % n < n := Nat.mod_lt _ (by omega)
    have := Nat.div_add_mod s n
    omega
  · intro i hi
    rw [getD_map_range _ _ hi]
  · rw [getD_map_range _ _ (show 0 < n from hn)]
    simp
  · intro i hi0 hin
    have hi1 : i - 1 < n := by omega
    rw [getD_map_range _ _ hin, getD_map_range _ _ hi1, getD_map_range _ _ hi1]
    have hlen : ((List.range n).map (fun j => if j < s % n then s / n + 1 else s / n)).length = n := by
      simp
    have hi' : i - 1 + 1 = i := by omega
    have hstep := sum_take_succ_getD
      ((List.range n).map (fun j => if j < s % n then s / n + 1 else s / n)) (i - 1)
      (by rw [hlen]; omega)
    rw [hi'] at hstep
    rw [hstep, getD_map_range _ _ hi1]

/-- Witness for C9 at `n = 3`, `s = 7`. -/
theorem evenly_distrib_idxs_spec_witness :
    (1 ≤ 3) ∧
    ((evenly_distrib_idxs 3 7).1.length = 3 ∧ (evenly_distrib_idxs 3 7).2.length = 3 ∧
     (evenly_distrib_idxs 3 7).1.sum = 7 ∧
     (∀ i, i < 3 →
       (evenly_distrib_idxs 3 7).1.getD i 0 = (if i < 7 % 3 then 7 / 3 + 1 else 7 / 3)) ∧
     (evenly_distrib_idxs 3 7).2.getD 0 0 = 0 ∧
     (∀ i, 0 < i → i < 3 →
       (evenly_distrib_idxs 3 7).2.getD i 0
         = (evenly_distrib_idxs 3 7).2.getD (i - 1) 0
           + (evenly_distrib_idxs 3 7).1.getD (i - 1) 0)) :=
  ⟨by decide, evenly_distrib_idxs_spec 3 7 (by decide)⟩

/-! ## ApproximationScheme._run_point (the PerturbationRunner)

Python source (abridged):
```
if deriv_type == 'total':
    run_model = system.run_solve_nonlinear ; results_vec = outputs
elif deriv_type == 'partial':
    run_model = system.run_apply_nonlinear ; results_vec = system._residuals
for in_name, idxs, delta in input_deltas:
    if in_name in outputs._views_flat: outputs._views_flat[in_name][idxs] += delta
    else:                              inputs._views_flat[in_name][idxs] += delta
results_vec.get_data(cache)
run_model()
results.set_vec(results_vec)
results_vec.set_data(cache)
for in_name, idxs, delta in input_deltas:
    if in_name in outputs._views_flat: outputs._views_flat[in_name][idxs] -= delta
    else:                              inputs._views_flat[in_name][idxs] -= delta
return results
```
`_views_flat` is modelled as an association list from variable name to its
flat block of the vector's data; floats by `ℚ`.  There is no
`try`/`finally` around `run_model()`: if it raises, none of the lines after
it execute. -/

/-- A vector's `_views_flat`: named flat blocks. -/
abbrev VecViews := List (String × List ℚ)

/-- `xs[idxs] += d` (numpy fancy-index in-place add: each listed position is
incremented once); `i` is the running flat position. -/
def addAt (idxs : List Nat) (d : ℚ) : Nat → List ℚ → List ℚ
  | _, [] => []
  | i, x :: xs => (if i ∈ idxs then x + d else x) :: addAt idxs d (i + 1) xs

/-- `xs[idxs] -= d`. -/
def subAt (idxs : List Nat) (d : ℚ) : Nat → List ℚ → List ℚ
  | _, [] => []
  | i, x :: xs => (if i ∈ idxs then x - d else x) :: subAt idxs d (i + 1) xs

/-- The effect of `vec._views_flat[name][idxs] += d` on one named block. -/
def entryAdd (name : String) (idxs : List Nat) (d : ℚ) (nb : String × List ℚ) :
    String × List ℚ :=
  if nb.1 = name then (nb.1, addAt idxs d 0 nb.2) else nb

/-- The effect of `vec._views_flat[name][idxs] -= d` on one named block. -/
def entrySub (name : String) (idxs : List Nat) (d : ℚ) (nb : String × List ℚ) :
    String × List ℚ :=
  if nb.1 = name then (nb.1, subAt idxs d 0 nb.2) else nb

/-- `vec._views_flat[name][idxs] += d`. -/
def viewAdd (v : VecViews) (name : String) (idxs : List Nat) (d : ℚ) : VecViews :=
  v.map (entryAdd name idxs d)

/-- `vec._views_flat[name][idxs] -= d`. -/
def viewSub (v : VecViews) (name : String) (idxs : List Nat) (d : ℚ) : VecViews :=
  v.map (entrySub name idxs d)

/-- `name in vec._views_flat`. -/
def hasView (v : VecViews) (name : String) : Bool :=
  v.any fun nb => nb.1 = name

/-- The shared state `_run_point` mutates: the system's inputs, outputs and
residuals vectors. -/
structure SysState where
  inputs : VecViews
  outputs : VecViews
  residuals : VecViews
deriving DecidableEq

/-- The `deriv_type` argument (`'total'` / `'partial'`). -/
inductive DerivType where
  | total
  | part
deriving DecidableEq

/-- One `(in_name, idxs, delta)` perturbation triple. -/
abbrev PDelta := String × List Nat × ℚ

/-- One iteration of the `+=` loop. -/
def stepAdd (s : SysState) (d : PDelta) : SysState :=
  if hasView s.outputs d.1 then { s with outputs := viewAdd s.outputs d.1 d.2.1 d.2.2 }
  else { s with inputs := viewAdd s.inputs d.1 d.2.1 d.2.2 }

/-- One iteration of the `-=` loop. -/
def stepSub (s : SysState) (d : PDelta) : SysState :=
  if hasView s.outputs d.1 then { s with outputs := viewSub s.outputs d.1 d.2.1 d.2.2 }
  else { s with inputs := viewSub s.inputs d.1 d.2.1 d.2.2 }

/-- The whole `+=` loop over `input_deltas`. -/
def applyDeltas (st : SysState) (ds : List PDelta) : SysState :=
  ds.foldl stepAdd st

/-- The whole `-=` loop over `input_deltas`. -/
def removeDeltas (st : SysState) (ds : List PDelta) : SysState :=
  ds.foldl stepSub st

/-- `results_vec` selection: outputs for `'total'`, residuals for `'partial'`. -/
def resultsVec (dt : DerivType) (st : SysState) : VecViews :=
  match dt with
  | .total => st.outputs
  | .part => st.residuals

/-- Writing the whole `results_vec` (`set_data` / in-place mutation by the
model run). -/
def setResultsVec (dt : DerivType) (st : SysState) (v : VecViews) : SysState :=
  match dt with
  | .total => { st with outputs := v }
  | .part => { st with residuals := v }

/-- Modelled from the spec: the model evaluation entry point
(`System.run_solve_nonlinear` / `run_apply_nonlinear` live outside this
core's sources).  Spec §6: the model "exposes `evaluate(mode) -> None`
(mutates a shared result-vector view in place)".  It is modelled as a
caller-supplied function from the mode and current shared state to either the
new content of the result vector or a raised exception. -/
abbrev EvalModel := DerivType → SysState → Except String VecViews

/-- `ApproximationScheme._run_point`, translated line by line.  Returns the
result (or the propagated exception), the final shared state, and the number
of `run_model()` invocations.  A Python exception leaves the mutated state as
it is, so the state is returned in the error case too; because there is no
`try`/`finally`, the `-=` loop is skipped on error. -/
def run_point (em : EvalModel) (dt : DerivType) (st : SysState) (input_deltas : List PDelta) :
    Except String VecViews × SysState × Nat :=
  let st1 := applyDeltas st input_deltas          -- the += loop
  let cache := resultsVec dt st1                  -- results_vec.get_data(cache)
  match em dt st1 with                            -- run_model()
  | .error e => (.error e, st1, 1)                -- exception propagates; no cleanup runs
  | .ok newRes =>
    let st2 := setResultsVec dt st1 newRes        -- run_model wrote results_vec in place
    let results := resultsVec dt st2              -- results.set_vec(results_vec)
    let st3 := setResultsVec dt st2 cache         -- results_vec.set_data(cache)
    (.ok results, removeDeltas st3 input_deltas, 1)  -- the -= loop; return results

theorem subAt_addAt (idxs : List Nat) (d : ℚ) (i : Nat) (xs : List ℚ) :
    subAt idxs d i (addAt idxs d i xs) = xs := by
  induction xs generalizing i with
  | nil => rfl
  | cons x xs ih =>
      simp only [addAt, subAt]
      by_cases h : i ∈ idxs
      · rw [if_pos h, if_pos h, ih]
        ring_nf
      · rw [if_neg h, if_neg h, ih]

theorem subAt_addAt_comm (ix1 ix2 : List Nat) (d1 d2 : ℚ) (i : Nat) (xs : List ℚ) :
    subAt ix2 d2 i (addAt ix1 d1 i xs) = addAt ix1 d1 i (subAt ix2 d2 i xs) := by
  induction xs generalizing i with
  | nil => rfl
  | cons x xs ih =>
      simp only [addAt, subAt]
      rw [ih]
      by_cases h1 : i ∈ ix1 <;> by_cases h2 : i ∈ ix2 <;>
        simp only [h1, h2, if_pos, if_neg, if_true, if_false] <;> ring_nf

theorem entrySub_entryAdd (name : String) (idxs : List Nat) (d : ℚ) (nb : String × List ℚ) :
    entrySub name idxs d (entryAdd name idxs d nb) = nb := by
  unfold entryAdd entrySub
  by_cases h : nb.1 = name
  · subst h
    simp [subAt_addAt]
  · simp [h]

theorem entrySub_entryAdd_comm (n1 n2 : String) (ix1 ix2 : List Nat) (d1 d2 : ℚ)
    (nb : String × List ℚ) :
    entrySub n2 ix2 d2 (entryAdd n1 ix1 d1 nb) = entryAdd n1 ix1 d1 (entrySub n2 ix2 d2 nb) := by
  unfold entryAdd entrySub
  by_cases h1 : nb.1 = n1 <;> by_cases h2 : nb.1 = n2
  · subst h1
    subst h2
    simp [subAt_addAt_comm]
  · subst h1
    simp [h2]
  · subst h2
    simp [h1]
  · simp [h1, h2]

theorem entryAdd_fst (name : String) (idxs : List Nat) (d : ℚ) (nb : String × List ℚ) :
    (entryAdd name idxs d nb).1 = nb.1 := by
  unfold entryAdd
  by_cases h : nb.1 = name <;> simp [h]

theorem entrySub_fst (name : String) (idxs : List Nat) (d : ℚ) (nb : String × List ℚ) :
    (entrySub name idxs d nb).1 = nb.1 := by
  unfold entrySub
  by_cases h : nb.1 = name <;> simp [h]

theorem viewSub_viewAdd (v : VecViews) (name : String) (idxs : List Nat) (d : ℚ) :
    viewSub (viewAdd v name idxs d) name idxs d = v := by
  induction v with
  | nil => rfl
  | cons nb v ih =>
      simp only [viewAdd, viewSub, List.map_cons, entrySub_entryAdd]
      simp only [viewAdd, viewSub] at ih
      rw [ih]

theorem viewSub_viewAdd_comm (v : VecViews) (n1 n2 : String) (ix1 ix2 : List Nat) (d1 d2 : ℚ) :
    viewSub (viewAdd v n1 ix1 d1) n2 ix2 d2 = viewAdd (viewSub v n2 ix2 d2) n1 ix1 d1 := by
  induction v with
  | nil => rfl
  | cons nb v ih =>
      simp only [viewAdd, viewSub, List.map_cons, entrySub_entryAdd_comm]
      simp only [viewAdd, viewSub] at ih
      rw [ih]

theorem hasView_viewAdd (v : VecViews) (n m : String) (idxs : List Nat) (d : ℚ) :
    hasView (viewAdd v n idxs d) m = hasView v m := by
  induction v with
  | nil => rfl
  | cons nb v ih =>
      simp only [viewAdd, hasView, List.map_cons, List.any_cons, entryAdd_fst] at *
      rw [ih]

theorem hasView_viewSub (v : VecViews) (n m : String) (idxs : List Nat) (d : ℚ) :
    hasView (viewSub v n idxs d) m = hasView v m := by
  induction v with
  | nil => rfl
  | cons nb v ih =>
      simp only [viewSub, hasView, List.map_cons, List.any_cons, entrySub_fst] at *
      rw [ih]

/-- One `-=` step cancels the matching `+=` step. -/
theorem stepSub_stepAdd (s : SysState) (d : PDelta) : stepSub (stepAdd s d) d = s := by
  unfold stepAdd stepSub
  by_cases h : hasView s.outputs d.1
  · simp [h, hasView_viewAdd, viewSub_viewAdd]
  · simp [h, hasView_viewAdd, viewSub_viewAdd]

/-- A `-=` step commutes with a `+=` step (both are pointwise additions). -/
theorem stepSub_stepAdd_comm (s : SysState) (d e : PDelta) :
    stepSub (stepAdd s e) d = stepAdd (stepSub s d) e := by
  unfold stepAdd stepSub
  by_cases he : hasView s.outputs e.1 <;> by_cases hd : hasView s.outputs d.1 <;>
    simp [he, hd, hasView_viewAdd, hasView_viewSub, viewSub_viewAdd_comm]

theorem stepSub_applyDeltas_comm (ds : List PDelta) (s : SysState) (d : PDelta) :
    stepSub (applyDeltas s ds) d = applyDeltas (stepSub s d) ds := by
  induction ds generalizing s with
  | nil => rfl
  | cons e ds ih =>
      simp only [applyDeltas, List.foldl_cons]
      have ih' := ih (stepAdd s e)
      simp only [applyDeltas] at ih'
      rw [ih', stepSub_stepAdd_comm]

/-- The `-=` loop over `input_deltas` exactly undoes the `+=` loop. -/
theorem removeDeltas_applyDeltas (st : SysState) (ds : List PDelta) :
    removeDeltas (applyDeltas st ds) ds = st := by
  induction ds generalizing st with
  | nil => rfl
  | cons d ds ih =>
      simp only [applyDeltas, removeDeltas, List.foldl_cons]
      have hc := stepSub_applyDeltas_comm ds (stepAdd st d) d
      simp only [applyDeltas] at hc
      rw [hc, stepSub_stepAdd]
      have h2 := ih st
      simp only [applyDeltas, removeDeltas] at h2
      exact h2

theorem setResultsVec_restore (dt : DerivType) (st : SysState) (v : VecViews) :
    setResultsVec dt (setResultsVec dt st v) (resultsVec dt st) = st := by
  cases dt <;> rfl

theorem resultsVec_setResultsVec (dt : DerivType) (st : SysState) (v : VecViews) :
    resultsVec dt (setResultsVec dt st v) = v := by
  cases dt <;> rfl

/-- Counterexample to **C1**: with a failing model evaluation, `_run_point`
propagates the exception but the perturbation delta is *not* subtracted back:
the input view `x` is left at `1`, not restored to its entry value `0`.
There is no cleanup path around `run_model()`. -/
theorem run_point_cleanup_cex :
    (run_point (fun _ _ => .error "solver diverged") .total
        ⟨[("x", [0])], [("y", [0])], [("r", [0])]⟩ [("x", [0], 1)]).1
      = .error "solver diverged" ∧
    (run_point (fun _ _ => .error "solver diverged") .total
        ⟨[("x", [0])], [("y", [0])], [("r", [0])]⟩ [("x", [0], 1)]).2.1.inputs
      ≠ [("x", [0])] := by
  constructor
  · rfl
  · intro hcontra
    have : (0 : ℚ) + 1 = 0 := by
      have h2 := congrArg (fun l => ((l.headD ("", [])).2.headD 37)) hcontra
      simpa [run_point, applyDeltas, stepAdd, hasView, viewAdd, entryAdd, addAt] using h2
    norm_num at this

/-- **C1 amended**: if the model evaluation raises, `_run_point` propagates
the exception unswallowed and the model is invoked exactly once, but *no*
cleanup runs: the shared state is left with every perturbation delta still
applied (the `-=` loop is unreachable after the raise). -/
theorem run_point_error_spec (em : EvalModel) (dt : DerivType) (st : SysState)
    (ds : List PDelta) (e : String)
    (h : em dt (applyDeltas st ds) = .error e) :
    run_point em dt st ds = (.error e, applyDeltas st ds, 1) := by
  simp only [run_point]
  rw [h]

/-- Witness for the amended C1 at a concrete failing run. -/
theorem run_point_error_spec_witness :
    ((fun _ _ => .error "diverged" : EvalModel) .total
        (applyDeltas ⟨[("x", [0])], [("y", [0])], [("r", [0])]⟩ [("x", [0], 1)])
      = .error "diverged") ∧
    run_point (fun _ _ => .error "diverged") .total
        ⟨[("x", [0])], [("y", [0])], [("r", [0])]⟩ [("x", [0], 1)]
      = (.error "diverged",
         applyDeltas ⟨[("x", [0])], [("y", [0])], [("r", [0])]⟩ [("x", [0], 1)], 1) :=
  ⟨rfl, run_point_error_spec _ _ _ _ _ rfl⟩

/-- **C2**: if the model evaluation returns normally, `_run_point` invokes it
exactly once, returns exactly the perturbed evaluation's result vector, and
restores the shared state exactly: on return the inputs, outputs and
residuals vectors hold the values they held on entry (perturbations
subtracted back out, the observed result vector restored from the cache
buffer). -/
theorem run_point_ok_spec (em : EvalModel) (dt : DerivType) (st : SysState)
    (ds : List PDelta) (newRes : VecViews)
    (h : em dt (applyDeltas st ds) = .ok newRes) :
    run_point em dt st ds = (.ok newRes, st, 1) := by
  simp only [run_point]
  rw [h]
  simp only [resultsVec_setResultsVec, setResultsVec_restore, removeDeltas_applyDeltas]

/-- Witness for C2 at a concrete successful run. -/
theorem run_point_ok_spec_witness :
    ((fun _ _ => .ok [("r", [7])] : EvalModel) .part
        (applyDeltas ⟨[("x", [0])], [("y", [0])], [("r", [0])]⟩ [("x", [0], 1)])
      = .ok [("r", [7])]) ∧
    run_point (fun _ _ => .ok [("r", [7])]) .part
        ⟨[("x", [0])], [("y", [0])], [("r", [0])]⟩ [("x", [0], 1)]
      = (.ok [("r", [7])], ⟨[("x", [0])], [("y", [0])], [("r", [0])]⟩, 1) :=
  ⟨rfl, run_point_ok_spec _ _ _ _ _ rfl⟩

/-! ## jacobian.py : the sub-Jacobian store (SparseBlockStore)

`_subjacs_info` is a dict keyed by absolute `(of, wrt)` name pairs; each
entry carries `rows`/`cols` (COO coordinates or `None` for dense), the
mutable `val`, and optionally a cached `sparsity` triple.  It is modelled as
an association list.  `val` is a dense 2-D array when `rows is None`, a flat
1-D array parallel to `rows`/`cols` when sparse, or a scipy sparse matrix
(modelled by its stored-nonzero data). -/

/-- A stored (or assigned) sub-jacobian value. -/
inductive JVal where
  | dense (m : List (List ℚ))
  | flat (v : List ℚ)
  | sp (data : List ℚ)
deriving DecidableEq

/-- One `_subjacs_info` metadata entry. -/
structure SubjacInfo where
  rows : Option (List Nat)
  cols : Option (List Nat)
  val : JVal
  sparsity : Option (List Nat × List Nat × (Nat × Nat)) := none
deriving DecidableEq

/-- `_subjacs_info` as an association list keyed by absolute name pairs. -/
abbrev SubjacStore := List ((String × String) × SubjacInfo)

def lookupStore (store : SubjacStore) (k : String × String) : Option SubjacInfo :=
  (store.find? (fun e => e.1 = k)).map (·.2)

/-- In-place mutation of the entry for `k`. -/
def updateStore (store : SubjacStore) (k : String × String) (info : SubjacInfo) : SubjacStore :=
  store.map (fun e => if e.1 = k then (e.1, info) else e)

/-- Exceptions raised by the dict interface. -/
inductive JacErr where
  | keyError (ofname wrt : String)
  | valueError
deriving DecidableEq

/-- A value passed to `__setitem__`: scalar, 1-D or 2-D ndarray, or a scipy
sparse matrix. -/
inductive NPValue where
  | scalar (q : ℚ)
  | arr1 (v : List ℚ)
  | arr2 (m : List (List ℚ))
  | sp (data : List ℚ)
deriving DecidableEq

/-- `Jacobian.__getitem__`:
```
try:
    return self._subjacs_info[self._get_abs_key(key)]['val']
except KeyError:
    raise KeyError('... Variable name pair ... not found.')
```
`resolver` models `_get_abs_key` (`None` when the name pair does not
resolve; indexing a dict with `None` also raises `KeyError`). -/
def jac_getitem (resolver : String × String → Option (String × String))
    (store : SubjacStore) (key : String × String) : Except JacErr JVal :=
  match resolver key with
  | none => .error (.keyError key.1 key.2)
  | some ak =>
    match lookupStore store ak with
    | none => .error (.keyError key.1 key.2)
    | some info => .ok info.val

/-- `np.atleast_2d`. -/
def atleast_2d : NPValue → List (List ℚ)
  | .scalar q => [[q]]
  | .arr1 v => [v]
  | .arr2 m => m
  | .sp d => [d]

/-- Shape of a (rectangular) 2-D array. -/
def shape2 (m : List (List ℚ)) : Nat × Nat := (m.length, (m.headD []).length)

/-- `subjac.reshape(shape)` in row-major order; `ValueError` when the total
size differs. -/
def npReshape (m : List (List ℚ)) (r c : Nat) : Except JacErr (List (List ℚ)) :=
  let flatv := m.flatten
  if flatv.length = r * c then
    .ok ((List.range r).map (fun i => (flatv.drop (i * c)).take c))
  else .error .valueError

/-- `val[:] = subjac` for a dense 2-D `val`.  After `__setitem__`'s reshape
the source either is 1×1 (numpy broadcast: fill) or has exactly `val`'s
shape (copy); anything else cannot broadcast and raises `ValueError`. -/
def denseAssign (val : List (List ℚ)) (src : List (List ℚ)) :
    Except JacErr (List (List ℚ)) :=
  if shape2 src = (1, 1) then
    .ok (val.map (fun row => row.map (fun _ => (src.headD []).headD 0)))
  else if shape2 src = shape2 val then .ok src
  else .error .valueError

/-- `val[:] = subjac` for a flat 1-D `val` (the sparse-storage branch):
numpy broadcasting fills from a scalar or a single-element array, copies an
equal-length array, and raises `ValueError` otherwise. -/
def flatAssign (val : List ℚ) (src : NPValue) : Except JacErr (List ℚ) :=
  match src with
  | .scalar q => .ok (val.map (fun _ => q))
  | .arr1 v =>
      if v.length = val.length then .ok v
      else if v.length = 1 then .ok (val.map (fun _ => v.headD 0))
      else .error .valueError
  | .arr2 m =>
      if m.length = 1 then
        let v := m.headD []
        if v.length = val.length then .ok v
        else if v.length = 1 then .ok (val.map (fun _ => v.headD 0))
        else .error .valueError
      else .error .valueError
  | .sp _ => .error .valueError

/-- `Jacobian.__setitem__`, translated branch by branch.  `shapeOf` models
`_abs_key2shape` (declared `(out_size, in_size)` from the system metadata).
Returns the raised exception (if any) and the store afterwards (unchanged
when an exception is raised before any write). -/
def jac_setitem (resolver : String × String → Option (String × String))
    (shapeOf : String × String → Nat × Nat) (store : SubjacStore)
    (key : String × String) (subjac : NPValue) : Except JacErr Unit × SubjacStore :=
  match resolver key with
  | none => (.error (.keyError key.1 key.2), store)
  | some ak =>
    match lookupStore store ak with
    | none => (.error (.keyError key.1 key.2), store)
    | some info =>
      match subjac with
      | .sp d => (.ok (), updateStore store ak { info with val := .sp d })
      | _ =>
        match info.rows with
        | none =>
          -- dense subjac
          let s2 := atleast_2d subjac
          if shape2 s2 = (1, 1) then
            match info.val with
            | .dense mval =>
              match denseAssign mval s2 with
              | .error e => (.error e, store)
              | .ok m' => (.ok (), updateStore store ak { info with val := .dense m' })
            | _ => (.error .valueError, store)  -- unreachable: dense entries store 2-D vals
          else
            match npReshape s2 (shapeOf ak).1 (shapeOf ak).2 with
            | .error e => (.error e, store)
            | .ok rs =>
              match info.val with
              | .dense mval =>
                match denseAssign mval rs with
                | .error e => (.error e, store)
                | .ok m' => (.ok (), updateStore store ak { info with val := .dense m' })
              | _ => (.error .valueError, store)  -- unreachable
        | some _ =>
          match info.val with
          | .flat v =>
            match flatAssign v subjac with
            | .error e => (.error e, store)
            | .ok v' => (.ok (), updateStore store ak { info with val := .flat v' })
          | _ => (.error .valueError, store)  -- unreachable: sparse entries store 1-D vals

/-- **C7**: for a key pair never declared as a sub-Jacobian (the name pair
does not resolve, or resolves to a pair not in `_subjacs_info`), both
`__getitem__` and `__setitem__` raise `KeyError` immediately at the call
site, and the failed `__setitem__` leaves every stored sub-Jacobian value
unchanged. -/
theorem jac_undeclared_keyerror
    (resolver : String × String → Option (String × String))
    (shapeOf : String × String → Nat × Nat) (store : SubjacStore)
    (key : String × String)
    (h : resolver key = none ∨
         ∃ ak, resolver key = some ak ∧ lookupStore store ak = none) :
    jac_getitem resolver store key = .error (.keyError key.1 key.2) ∧
    ∀ subjac, jac_setitem resolver shapeOf store key subjac
      = (.error (.keyError key.1 key.2), store) := by
  rcases h with h | ⟨ak, hak, hlk⟩
  · constructor
    · simp [jac_getitem, h]
    · intro subjac
      simp [jac_setitem, h]
  · constructor
    · simp [jac_getitem, hak, hlk]
    · intro subjac
      simp [jac_setitem, hak, hlk]

/-- Witness for C7: a concrete store declaring only `("y", "x")`, queried at
the undeclared pair `("y", "z")`. -/
theorem jac_undeclared_keyerror_witness :
    ((some ∘ id : String × String → Option (String × String)) ("y", "z") = none ∨
     ∃ ak, (some ∘ id : String × String → Option (String × String)) ("y", "z") = some ak ∧
       lookupStore [(("y", "x"), ⟨none, none, .dense [[0]], none⟩)] ak = none) ∧
    (jac_getitem (some ∘ id) [(("y", "x"), ⟨none, none, .dense [[0]], none⟩)] ("y", "z")
       = .error (.keyError "y" "z") ∧
     ∀ subjac, jac_setitem (some ∘ id) (fun _ => (1, 1))
         [(("y", "x"), ⟨none, none, .dense [[0]], none⟩)] ("y", "z") subjac
       = (.error (.keyError "y" "z"), [(("y", "x"), ⟨none, none, .dense [[0]], none⟩)])) := by
  have h : (some ∘ id : String × String → Option (String × String)) ("y", "z") = none ∨
      ∃ ak, (some ∘ id : String × String → Option (String × String)) ("y", "z") = some ak ∧
        lookupStore [(("y", "x"), ⟨none, none, .dense [[0]], none⟩)] ak = none := by
    right
    exact ⟨("y", "z"), rfl, by simp [lookupStore]⟩
  exact ⟨h, jac_undeclared_keyerror _ _ _ _ h⟩

theorem shape2_map_rows (m : List (List ℚ)) (g : List ℚ → List ℚ)
    (hg : ∀ row, (g row).length = row.length) :
    shape2 (m.map g) = shape2 m := by
  cases m with
  | nil => rfl
  | cons r rs => simp [shape2, hg]

theorem flatten_length_rect (m : List (List ℚ)) (w : Nat)
    (h : ∀ row ∈ m, row.length = w) :
    m.flatten.length = m.length * w := by
  induction m with
  | nil => simp
  | cons r rs ih =>
      simp only [List.flatten_cons, List.length_append, List.length_cons]
      rw [h r (by simp), ih (fun row hrow => h row (by simp [hrow]))]
      ring

theorem npReshape_ok (m : List (List ℚ)) (R C : Nat)
    (h : m.flatten.length = R * C) :
    npReshape m R C
      = .ok ((List.range R).map (fun i => (m.flatten.drop (i * C)).take C)) := by
  simp [npReshape, h]

theorem shape2_reshape (m : List (List ℚ)) (R C : Nat)
    (h : m.flatten.length = R * C) (hR : 0 < R) :
    shape2 ((List.range R).map (fun i => (m.flatten.drop (i * C)).take C)) = (R, C) := by
  obtain ⟨n, rfl⟩ : ∃ n, R = n + 1 := ⟨R - 1, by omega⟩
  have hsum : (m.map List.length).sum = (n + 1) * C := by
    have h2 : m.flatten.length = (m.map List.length).sum := by simp
    omega
  have hle : C ≤ (m.map List.length).sum := by
    rw [hsum]
    exact Nat.le_mul_of_pos_left C hR
  rw [List.range_succ_eq_map]
  simp [shape2, Nat.min_eq_left hle]

/-- Counterexample to **C8**: a declared sparse sub-Jacobian with
`rows = [0, 1]` (length 2), assigned a 1-element array `[5]` whose shape does
not match the rows length: numpy broadcasting accepts it (filling every
stored position) instead of raising `ValueError`. -/
theorem jac_setitem_shape_cex :
    jac_setitem (some ∘ id) (fun _ => (2, 2))
        [(("f", "x"), ⟨some [0, 1], some [0, 1], .flat [1, 2], none⟩)]
        ("f", "x") (.arr1 [5])
      = (.ok (), [(("f", "x"), ⟨some [0, 1], some [0, 1], .flat [5, 5], none⟩)]) ∧
    (jac_setitem (some ∘ id) (fun _ => (2, 2))
        [(("f", "x"), ⟨some [0, 1], some [0, 1], .flat [1, 2], none⟩)]
        ("f", "x") (.arr1 [5])).1 ≠ .error .valueError := by
  constructor
  · rfl
  · intro hcontra
    simp [jac_setitem, lookupStore, flatAssign, List.find?] at hcontra

/-- **C8 amended**: for a declared dense sub-Jacobian (`rows is None`),
`__setitem__` with a scalar or 1×1 value broadcasts it to the full block,
and with any other non-sparse value whose total size equals the declared
`(out_size, in_size)` size reshapes it to the declared shape; for a declared
sparse sub-Jacobian, a value of two or more elements whose length differs
from the declared `rows` length raises `ValueError` (leaving the store
unchanged), while scalar or single-element values broadcast to every stored
position without error. -/
theorem jac_setitem_shape_spec
    (resolver : String × String → Option (String × String))
    (shapeOf : String × String → Nat × Nat) (store : SubjacStore)
    (key ak : String × String) (info : SubjacInfo)
    (hak : resolver key = some ak) (hlk : lookupStore store ak = some info) :
    -- dense, scalar or 1×1 value: broadcast fill
    (∀ subjac mval, info.rows = none → info.val = .dense mval →
      (∀ d, subjac ≠ NPValue.sp d) →
      shape2 (atleast_2d subjac) = (1, 1) →
      jac_setitem resolver shapeOf store key subjac
        = (.ok (), updateStore store ak
            { info with val := .dense (mval.map (fun row =>
                row.map (fun _ => ((atleast_2d subjac).headD []).headD 0))) }) ∧
      shape2 (mval.map (fun row =>
          row.map (fun _ => ((atleast_2d subjac).headD []).headD 0))) = shape2 mval ∧
      (∀ row ∈ mval.map (fun row =>
          row.map (fun _ => ((atleast_2d subjac).headD []).headD 0)),
        ∀ x ∈ row, x = ((atleast_2d subjac).headD []).headD 0)) ∧
    -- dense, any other non-sparse value of the declared total size: reshape
    (∀ subjac mval, info.rows = none → info.val = .dense mval →
      (∀ d, subjac ≠ NPValue.sp d) →
      shape2 (atleast_2d subjac) ≠ (1, 1) →
      (∀ row ∈ atleast_2d subjac, row.length = (shape2 (atleast_2d subjac)).2) →
      (atleast_2d subjac).flatten.length = (shapeOf ak).1 * (shapeOf ak).2 →
      shape2 mval = shapeOf ak →
      ∃ rs, npReshape (atleast_2d subjac) (shapeOf ak).1 (shapeOf ak).2 = .ok rs ∧
        shape2 rs = shapeOf ak ∧
        jac_setitem resolver shapeOf store key subjac
          = (.ok (), updateStore store ak { info with val := .dense rs })) ∧
    -- sparse, mismatched multi-element value: ValueError, store unchanged
    (∀ w rs v, info.rows = some rs → info.val = .flat v → v.length = rs.length →
      2 ≤ w.length → w.length ≠ rs.length →
      jac_setitem resolver shapeOf store key (.arr1 w) = (.error .valueError, store)) ∧
    -- sparse, scalar or single-element value: broadcast fill, no error
    (∀ rs v, info.rows = some rs → info.val = .flat v →
      (∀ q, jac_setitem resolver shapeOf store key (.scalar q)
        = (.ok (), updateStore store ak { info with val := .flat (v.map (fun _ => q)) })) ∧
      (∀ w, w.length = 1 →
        jac_setitem resolver shapeOf store key (.arr1 w)
          = (.ok (), updateStore store ak
              { info with val := .flat (v.map (fun _ => w.headD 0)) }))) := by
  refine ⟨?_, ?_, ?_, ?_⟩
  · -- dense broadcast
    intro subjac mval hr hv hnsp hsh
    refine ⟨?_, ?_, ?_⟩
    · cases subjac with
      | sp d => exact absurd rfl (hnsp d)
      | scalar q =>
          simp only [jac_setitem, hak, hlk, hr, hv]
          simp only [atleast_2d] at hsh ⊢
          rw [if_pos hsh]
          simp [denseAssign, shape2]
      | arr1 v =>
          simp only [jac_setitem, hak, hlk, hr, hv]
          rw [if_pos hsh]
          simp only [denseAssign]
          rw [if_pos (show shape2 (atleast_2d (.arr1 v)) = (1, 1) from hsh)]
      | arr2 m =>
          simp only [jac_setitem, hak, hlk, hr, hv]
          rw [if_pos hsh]
          simp only [denseAssign]
          rw [if_pos (show shape2 (atleast_2d (.arr2 m)) = (1, 1) from hsh)]
    · exact shape2_map_rows _ _ (fun row => by simp)
    · intro row hrow x hx
      rcases List.mem_map.1 hrow with ⟨row0, _, rfl⟩
      rcases List.mem_map.1 hx with ⟨y, _, rfl⟩
      rfl
  · -- dense reshape
    intro subjac mval hr hv hnsp hsh hrect hflat hshm
    have hm1 : mval.length = (shapeOf ak).1 := congrArg Prod.fst hshm
    have hm2 : (mval.headD []).length = (shapeOf ak).2 := congrArg Prod.snd hshm
    -- shape of the reshaped array
    have hsh_rs : shape2 ((List.range (shapeOf ak).1).map
        (fun i => ((atleast_2d subjac).flatten.drop (i * (shapeOf ak).2)).take (shapeOf ak).2))
        = shapeOf ak := by
      rcases Nat.eq_zero_or_pos (shapeOf ak).1 with h0 | hpos
      · have hmnil : mval = [] := List.length_eq_zero.1 (by omega)
        have hC0 : (shapeOf ak).2 = 0 := by
          rw [hmnil] at hm2
          simpa using hm2.symm
        have : shapeOf ak = (0, 0) := by
          rw [Prod.ext_iff]
          exact ⟨h0, hC0⟩
        rw [this]
        simp [shape2]
      · have := shape2_reshape (atleast_2d subjac) (shapeOf ak).1 (shapeOf ak).2 hflat hpos
        rw [this]
    refine ⟨(List.range (shapeOf ak).1).map
        (fun i => ((atleast_2d subjac).flatten.drop (i * (shapeOf ak).2)).take (shapeOf ak).2),
      npReshape_ok _ _ _ hflat, hsh_rs, ?_⟩
    -- the store update
    have hshr : shape2 ((List.range (shapeOf ak).1).map
        (fun i => ((atleast_2d subjac).flatten.drop (i * (shapeOf ak).2)).take (shapeOf ak).2))
        = shape2 mval := hsh_rs.trans hshm.symm
    have hne1 : shape2 ((List.range (shapeOf ak).1).map
        (fun i => ((atleast_2d subjac).flatten.drop (i * (shapeOf ak).2)).take (shapeOf ak).2))
        ≠ (1, 1) := by
      intro hcontra
      -- then the declared shape is (1,1), so the rectangular source has
      -- total size 1 and hence shape (1,1), contradicting `hsh`
      have hRC : shapeOf ak = (1, 1) := hsh_rs.symm.trans hcontra
      have hflat1 : (atleast_2d subjac).flatten.length = 1 := by
        rw [hflat, hRC]
        rfl
      have hrectlen := flatten_length_rect (atleast_2d subjac)
        (shape2 (atleast_2d subjac)).2 hrect
      rw [hrectlen] at hflat1
      have hn1 : (atleast_2d subjac).length = 1 :=
        Nat.eq_one_of_mul_eq_one_right hflat1
      have hw1 : (shape2 (atleast_2d subjac)).2 = 1 :=
        Nat.eq_one_of_mul_eq_one_left hflat1
      apply hsh
      have heta : shape2 (atleast_2d subjac)
          = ((atleast_2d subjac).length, (shape2 (atleast_2d subjac)).2) := rfl
      rw [heta, hn1, hw1]
    cases subjac with
    | sp d => exact absurd rfl (hnsp d)
    | scalar q =>
        simp only [jac_setitem, hak, hlk, hr, hv]
        rw [if_neg hsh, npReshape_ok _ _ _ hflat]
        simp only [denseAssign]
        rw [if_neg hne1, if_pos hshr]
    | arr1 v =>
        simp only [jac_setitem, hak, hlk, hr, hv]
        rw [if_neg hsh, npReshape_ok _ _ _ hflat]
        simp only [denseAssign]
        rw [if_neg hne1, if_pos hshr]
    | arr2 m =>
        simp only [jac_setitem, hak, hlk, hr, hv]
        rw [if_neg hsh, npReshape_ok _ _ _ hflat]
        simp only [denseAssign]
        rw [if_neg hne1, if_pos hshr]
  · -- sparse mismatch
    intro w rs v hr hv hvlen hw2 hwne
    simp only [jac_setitem, hak, hlk, hr, hv, flatAssign]
    rw [if_neg (by omega), if_neg (by omega)]
  · -- sparse broadcast
    intro rs v hr hv
    constructor
    · intro q
      simp [jac_setitem, hak, hlk, hr, hv, flatAssign]
    · intro w hw
      simp only [jac_setitem, hak, hlk, hr, hv, flatAssign]
      by_cases hlen : w.length = v.length
      · rw [if_pos hlen]
        have hv1 : v.length = 1 := by omega
        cases w with
        | nil => simp at hw
        | cons a as =>
            cases as with
            | nil =>
                cases v with
                | nil => simp at hv1
                | cons b bs =>
                    cases bs with
                    | nil => simp
                    | cons c cs => simp at hv1
            | cons b bs => simp at hw
      · rw [if_neg hlen, if_pos hw]

/-- Witness for the amended C8: a scalar assigned to a concrete sparse
sub-Jacobian broadcast-fills its stored positions. -/
theorem jac_setitem_shape_spec_witness :
    jac_setitem (some ∘ id) (fun _ => (2, 2))
        [(("f", "x"), ⟨some [0, 1], some [0, 1], .flat [1, 2], none⟩)]
        ("f", "x") (.scalar 3)
      = (.ok (), [(("f", "x"), ⟨some [0, 1], some [0, 1], .flat [3, 3], none⟩)]) := by
  have h := (jac_setitem_shape_spec (some ∘ id) (fun _ => (2, 2))
      [(("f", "x"), ⟨some [0, 1], some [0, 1], .flat [1, 2], none⟩)]
      ("f", "x") ("f", "x") ⟨some [0, 1], some [0, 1], .flat [1, 2], none⟩
      rfl rfl).2.2.2
  have h2 := (h [0, 1] [1, 2] rfl rfl).1 3
  rw [h2]
  rfl

/-! ## jacobian.py : _setup_index_maps and set_col

```
def _setup_index_maps(self, system):
    self._col_var_offset = {}
    col_var_info = []
    for wrt, start, end, _, _, _ in system._jac_wrt_iter():
        self._col_var_offset[wrt] = start
        col_var_info.append(end)
    self._col_varnames = list(self._col_var_offset)
    self._col2name_ind = np.empty(end, dtype=INT_DTYPE)
    start = 0
    for i, end in enumerate(col_var_info):
        self._col2name_ind[start:end] = i
        start = end

def set_col(self, system, icol, column):
    if self._col_varnames is None:
        self._setup_index_maps(system)
    wrt = self._col_varnames[self._col2name_ind[icol]]
    loc_idx = icol - self._col_var_offset[wrt]
    for of, start, end, _, _ in system._jac_of_iter():
        key = (of, wrt)
        if key in self._subjacs_info:
            subjac = self._subjacs_info[key]
            if subjac['cols'] is None:
                subjac['val'][:, loc_idx] = column[start:end]
            else:
                match_inds = np.nonzero(subjac['cols'] == loc_idx)[0]
                if match_inds.size > 0:
                    subjac['val'][match_inds] = column[start:end][subjac['rows'][match_inds]]
```
The system iterators are modelled as lists of `(name, start, end)` triples. -/

/-- An entry list of `system._jac_wrt_iter()` / `_jac_of_iter()`:
`(name, start, end)` global offset ranges (extra tuple members unused here). -/
abbrev JacIter := List (String × Nat × Nat)

/-- The fill loop of `_setup_index_maps`: positions `start:end` receive the
variable's index `i`, `start` running over the previous `end`. -/
def fillEnds : Nat → Nat → List Nat → List Nat
  | _, _, [] => []
  | i, start, e :: es => List.replicate (e - start) i ++ fillEnds (i + 1) e es

/-- `_col2name_ind`. -/
def col2name_ind (wrt_iter : JacIter) : List Nat :=
  fillEnds 0 0 (wrt_iter.map (fun w => w.2.2))

/-- `_col_var_offset[wrt]` (the dict from column-variable name to its
global `start`). -/
def col_var_offset (wrt_iter : JacIter) (name : String) : Nat :=
  ((wrt_iter.find? (fun w => w.1 = name)).map (fun w => w.2.1)).getD 0

/-- `_col_varnames`. -/
def col_varnames (wrt_iter : JacIter) : List String :=
  wrt_iter.map (fun w => w.1)

/-- `column[start:end]`. -/
def slice (column : List ℚ) (s e : Nat) : List ℚ :=
  (column.drop s).take (e - s)

/-- Element-wise loop with a running index. -/
def mapWithIdx {α β : Type} (f : Nat → α → β) : Nat → List α → List β
  | _, [] => []
  | i, x :: xs => f i x :: mapWithIdx f (i + 1) xs

/-- The effect of `set_col` on one declared sub-jacobian: dense
(`subjac['val'][:, loc_idx] = column[start:end]`) or our COO format
(`val[match_inds] = column[start:end][rows[match_inds]]` with
`match_inds = nonzero(cols == loc_idx)`; positions whose stored `cols`
differ from `loc_idx` keep their value). -/
def subjac_set_col (loc : Nat) (colSlice : List ℚ) (info : SubjacInfo) : SubjacInfo :=
  match info.cols with
  | none =>
    match info.val with
    | .dense m =>
        { info with
          val := .dense (mapWithIdx (fun r row => row.set loc (colSlice.getD r 0)) 0 m) }
    | _ => info
  | some cs =>
    match info.val, info.rows with
    | .flat v, some rs =>
        { info with
          val := .flat (mapWithIdx (fun k x =>
            if cs.getD k 0 = loc then colSlice.getD (rs.getD k 0) 0 else x) 0 v) }
    | _, _ => info

/-- The body of `set_col`'s loop over `_jac_of_iter()`. -/
def set_col_step (wrt : String) (loc : Nat) (column : List ℚ)
    (st : SubjacStore) (o : String × Nat × Nat) : SubjacStore :=
  match lookupStore st (o.1, wrt) with
  | none => st
  | some info => updateStore st (o.1, wrt) (subjac_set_col loc (slice column o.2.1 o.2.2) info)

/-- `Jacobian.set_col`. -/
def set_col (wrt_iter of_iter : JacIter) (store : SubjacStore) (icol : Nat)
    (column : List ℚ) : SubjacStore :=
  let wrt := (col_varnames wrt_iter).getD ((col2name_ind wrt_iter).getD icol 0) ""
  let loc := icol - col_var_offset wrt_iter wrt
  of_iter.foldl (set_col_step wrt loc column) store

/-- The `_jac_wrt_iter` ranges are contiguous: each `start` equals the
running offset and each `end` is at least its `start`. -/
def contigFrom : Nat → JacIter → Prop
  | _, [] => True
  | s, w :: ws => w.2.1 = s ∧ s ≤ w.2.2 ∧ contigFrom w.2.2 ws

theorem getD_map {α β : Type} (f : α → β) (l : List α) (j : Nat) (d : β) (d' : α)
    (hj : j < l.length) :
    (l.map f).getD j d = f (l.getD j d') := by
  rw [List.getD_eq_getElem?_getD, List.getElem?_map, List.getElem?_eq_getElem hj,
      List.getD_eq_getElem?_getD, List.getElem?_eq_getElem hj]
  rfl

theorem getD_replicate_append {α : Type} (n : Nat) (a : α) (l : List α) (k : Nat) (d : α) :
    (List.replicate n a ++ l).getD k d = if k < n then a else l.getD (k - n) d := by
  induction n generalizing k with
  | zero => simp
  | succ n ih =>
      cases k with
      | zero => simp [List.replicate_succ]
      | succ k =>
          simp only [List.replicate_succ, List.cons_append, List.getD_cons_succ, ih]
          have h1 : k + 1 < n + 1 ↔ k < n := by omega
          have h2 : k + 1 - (n + 1) = k - n := by omega
          rw [h2]
          by_cases h : k < n
          · rw [if_pos h, if_pos (by omega)]
          · rw [if_neg h, if_neg (by omega)]

/-- Every block start in a contiguous iterator is at least the running
offset. -/
theorem contigFrom_start_ge (ws : JacIter) (s : Nat) (h : contigFrom s ws) :
    ∀ j, j < ws.length → s ≤ (ws.getD j ("", 0, 0)).2.1 := by
  induction ws generalizing s with
  | nil => intro j hj; simp at hj
  | cons w ws ih =>
      intro j hj
      rcases h with ⟨hst, hse, hrest⟩
      cases j with
      | zero => simp [hst]
      | succ j =>
          have := ih w.2.2 hrest j (by simpa using hj)
          simp only [List.getD_cons_succ]
          omega

/-- `_col2name_ind[icol] = j` when `icol` lies in block `j`'s range. -/
theorem fillEnds_getD (ws : JacIter) (i0 s icol j : Nat)
    (hcf : contigFrom s ws) (hj : j < ws.length)
    (hlo : (ws.getD j ("", 0, 0)).2.1 ≤ icol) (hhi : icol < (ws.getD j ("", 0, 0)).2.2) :
    (fillEnds i0 s (ws.map (fun w => w.2.2))).getD (icol - s) 0 = i0 + j := by
  induction ws generalizing i0 s j with
  | nil => simp at hj
  | cons w ws ih =>
      rcases hcf with ⟨hst, hse, hrest⟩
      simp only [List.map_cons, fillEnds]
      cases j with
      | zero =>
          simp only [List.getD_cons_zero] at hlo hhi
          rw [getD_replicate_append]
          rw [if_pos (by omega)]
          omega
      | succ j =>
          simp only [List.getD_cons_succ] at hlo hhi
          have hge : w.2.2 ≤ (ws.getD j ("", 0, 0)).2.1 :=
            contigFrom_start_ge ws w.2.2 hrest j (by simpa using hj)
          rw [getD_replicate_append]
          rw [if_neg (by omega)]
          have harith : icol - s - (w.2.2 - s) = icol - w.2.2 := by omega
          rw [harith]
          have := ih (i0 + 1) w.2.2 j hrest (by simpa using hj) hlo hhi
          rw [this]
          omega

/-- `_col_var_offset[name] = start` for the unique block named `name`. -/
theorem col_var_offset_eq (ws : JacIter) (j : Nat) (name : String) (st en : Nat)
    (hnd : (ws.map (fun w => w.1)).Nodup) (hj : j < ws.length)
    (hget : ws.getD j ("", 0, 0) = (name, st, en)) :
    col_var_offset ws name = st := by
  induction ws generalizing j with
  | nil => simp at hj
  | cons w ws ih =>
      rcases List.nodup_cons.1 hnd with ⟨hw, hnd'⟩
      cases j with
      | zero =>
          simp only [List.getD_cons_zero] at hget
          unfold col_var_offset
          rw [List.find?_cons_of_pos _ (by simp [hget])]
          simp [hget]
      | succ j =>
          simp only [List.getD_cons_succ] at hget
          have hj' : j < ws.length := by simpa using hj
          have hmem : name ∈ ws.map (fun w => w.1) := by
            have : ws.getD j ("", 0, 0) ∈ ws := by
              rw [List.getD_eq_getElem?_getD, List.getElem?_eq_getElem hj']
              exact List.getElem_mem _
            have h2 := List.mem_map_of_mem (fun w => w.1) this
            rw [hget] at h2
            exact h2
          have hne : ¬ (w.1 = name) := by
            intro hcontra
            have hmem' : w.1 ∈ ws.map (fun w => w.1) := by
              rw [hcontra]
              exact hmem
            exact hw hmem'
          unfold col_var_offset
          rw [List.find?_cons_of_neg _ (by simp [hne])]
          exact ih j hnd' hj' hget

theorem lookup_update_ne (store : SubjacStore) (k k' : String × String)
    (info' : SubjacInfo) (h : k' ≠ k) :
    lookupStore (updateStore store k info') k' = lookupStore store k' := by
  induction store with
  | nil => rfl
  | cons e es ih =>
      by_cases he : e.1 = k
      · have h2 : ¬ (e.1 = k') := by
          rw [he]
          exact fun hc => h hc.symm
        simp only [updateStore, List.map_cons, if_pos he, lookupStore]
        rw [List.find?_cons_of_neg _ (by simp [h2]), List.find?_cons_of_neg _ (by simp [h2])]
        exact ih
      · simp only [updateStore, List.map_cons, if_neg he, lookupStore]
        by_cases h2 : e.1 = k'
        · rw [List.find?_cons_of_pos _ (by simp [h2]), List.find?_cons_of_pos _ (by simp [h2])]
        · rw [List.find?_cons_of_neg _ (by simp [h2]), List.find?_cons_of_neg _ (by simp [h2])]
          exact ih

theorem lookup_update_self (store : SubjacStore) (k : String × String) (info' : SubjacInfo) :
    lookupStore (updateStore store k info') k
      = (lookupStore store k).map (fun _ => info') := by
  induction store with
  | nil => rfl
  | cons e es ih =>
      by_cases he : e.1 = k
      · simp only [updateStore, List.map_cons, if_pos he, lookupStore]
        rw [List.find?_cons_of_pos _ (by simp [he]), List.find?_cons_of_pos _ (by simp [he])]
        rfl
      · simp only [updateStore, List.map_cons, if_neg he, lookupStore]
        rw [List.find?_cons_of_neg _ (by simp [he]), List.find?_cons_of_neg _ (by simp [he])]
        exact ih

/-- Steps for `of` names other than `key.1`, or a different `wrt`, leave the
lookup unchanged. -/
theorem foldl_set_col_untouched (of_iter : JacIter) (wrt : String) (loc : Nat)
    (column : List ℚ) (store : SubjacStore) (key : String × String)
    (h : key.2 ≠ wrt ∨ key.1 ∉ of_iter.map (fun o => o.1)) :
    lookupStore (of_iter.foldl (set_col_step wrt loc column) store) key
      = lookupStore store key := by
  induction of_iter generalizing store with
  | nil => rfl
  | cons o os ih =>
      simp only [List.foldl_cons]
      have hkey : key ≠ (o.1, wrt) := by
        rcases h with h | h
        · intro hc
          exact h (by rw [hc])
        · intro hc
          apply h
          rw [hc]
          exact List.mem_map_of_mem _ (by simp)
      have hstep : lookupStore (set_col_step wrt loc column store o) key
          = lookupStore store key := by
        unfold set_col_step
        cases hl : lookupStore store (o.1, wrt) with
        | none => rfl
        | some info => exact lookup_update_ne _ _ _ _ hkey
      rw [← hstep]
      apply ih
      rcases h with h | h
      · exact Or.inl h
      · exact Or.inr (fun hc => h (by simp [hc]))

/-- For a member `(of, s, e)` of `_jac_of_iter()` (names distinct), the final
lookup of `(of, wrt)` is the scatter update of the original entry. -/
theorem foldl_set_col_mem (of_iter : JacIter) (wrt : String) (loc : Nat)
    (column : List ℚ) (store : SubjacStore) (ofn : String) (s e : Nat)
    (hmem : (ofn, s, e) ∈ of_iter) (hnd : (of_iter.map (fun o => o.1)).Nodup) :
    lookupStore (of_iter.foldl (set_col_step wrt loc column) store) (ofn, wrt)
      = (lookupStore store (ofn, wrt)).map (subjac_set_col loc (slice column s e)) := by
  induction of_iter generalizing store with
  | nil => simp at hmem
  | cons o os ih =>
      rcases List.nodup_cons.1 hnd with ⟨ho, hnd'⟩
      simp only [List.foldl_cons]
      rcases List.mem_cons.1 hmem with heq | htail
      · -- the head is our block; later steps have different `of` names
        have hnotin : ofn ∉ os.map (fun o => o.1) := by
          rw [← heq] at ho
          exact ho
        rw [foldl_set_col_untouched os wrt loc column _ (ofn, wrt) (Or.inr hnotin)]
        unfold set_col_step
        rw [← heq]
        cases hl : lookupStore store (ofn, wrt) with
        | none => simp [hl]
        | some info =>
            simp only [Option.map_some]
            rw [lookup_update_self, hl]
            rfl
      · -- the head is a different block: its step does not touch `(ofn, wrt)`
        have hne : ofn ≠ o.1 := by
          intro hc
          apply ho
          show o.1 ∈ os.map (fun o => o.1)
          rw [← hc]
          exact List.mem_map_of_mem _ htail
        have hstep : lookupStore (set_col_step wrt loc column store o) (ofn, wrt)
            = lookupStore store (ofn, wrt) := by
          unfold set_col_step
          cases hl : lookupStore store (o.1, wrt) with
          | none => rfl
          | some info =>
              exact lookup_update_ne _ _ _ _ (by simp [hne])
        rw [ih _ htail hnd', hstep]

theorem mapWithIdx_length {α β : Type} (f : Nat → α → β) (i0 : Nat) (l : List α) :
    (mapWithIdx f i0 l).length = l.length := by
  induction l generalizing i0 with
  | nil => rfl
  | cons x xs ih => simp [mapWithIdx, ih]

theorem mapWithIdx_getD {α β : Type} (f : Nat → α → β) (i0 k : Nat) (l : List α)
    (d : α) (d' : β) (hk : k < l.length) :
    (mapWithIdx f i0 l).getD k d' = f (i0 + k) (l.getD k d) := by
  induction l generalizing i0 k with
  | nil => simp at hk
  | cons x xs ih =>
      cases k with
      | zero => simp [mapWithIdx]
      | succ k =>
          simp only [mapWithIdx, List.getD_cons_succ]
          rw [ih (i0 + 1) k (by simpa using hk)]
          have : i0 + 1 + k = i0 + (k + 1) := by omega
          rw [this]

theorem getD_set (row : List ℚ) (loc c : Nat) (y d : ℚ) :
    (row.set loc y).getD c d = if c = loc ∧ c < row.length then y else row.getD c d := by
  rw [List.getD_eq_getElem?_getD, List.getD_eq_getElem?_getD, List.getElem?_set]
  by_cases h1 : loc = c
  · subst h1
    by_cases h2 : loc < row.length
    · simp [h2]
    · rw [if_pos rfl, if_neg h2, if_neg (by omega)]
      rw [List.getElem?_eq_none (by omega)]
  · rw [if_neg h1, if_neg (by exact fun hc => h1 hc.1.symm)]

theorem slice_getD (column : List ℚ) (s e r : Nat) :
    (slice column s e).getD r 0 = if r < e - s then column.getD (s + r) 0 else 0 := by
  unfold slice
  rw [List.getD_eq_getElem?_getD, List.getElem?_take]
  by_cases h : r < e - s
  · rw [if_pos h, if_pos h, List.getElem?_drop, List.getD_eq_getElem?_getD]
  · rw [if_neg h, if_neg h]
    rfl

/-- **C3**: `Jacobian.set_col(system, icol, column)` maps the global column
index through the column-offset table to the input variable `name` whose
range `[start, end)` contains `icol` and the local offset `icol - start`;
then for each `(of, s, e)` output block with a declared `(of, name)`
sub-Jacobian: a dense block gets exactly its local column overwritten from
`column[s:e]`, a COO block gets values written only at stored positions
whose declared `cols` equal the local offset (from the slice at the stored
row), and undeclared pairs or blocks of other column variables are left
untouched — no error in any case. -/
theorem set_col_spec (wrt_iter of_iter : JacIter) (store : SubjacStore)
    (icol : Nat) (column : List ℚ) (j : Nat) (name : String) (start en : Nat)
    (hcf : contigFrom 0 wrt_iter)
    (hj : j < wrt_iter.length)
    (hget : wrt_iter.getD j ("", 0, 0) = (name, start, en))
    (hlo : start ≤ icol) (hhi : icol < en)
    (hnames : (wrt_iter.map (fun w => w.1)).Nodup)
    (hofs : (of_iter.map (fun o => o.1)).Nodup) :
    -- (1) the offset-table mapping
    ((col_varnames wrt_iter).getD ((col2name_ind wrt_iter).getD icol 0) "" = name ∧
     col_var_offset wrt_iter name = start) ∧
    -- (2) declared (of, name) blocks are scatter-updated from their slice
    (∀ ofn s2 e2, (ofn, s2, e2) ∈ of_iter →
      lookupStore (set_col wrt_iter of_iter store icol column) (ofn, name)
        = (lookupStore store (ofn, name)).map
            (subjac_set_col (icol - start) (slice column s2 e2))) ∧
    -- (3) all other keys are untouched
    (∀ key : String × String, key.2 ≠ name ∨ key.1 ∉ of_iter.map (fun o => o.1) →
      lookupStore (set_col wrt_iter of_iter store icol column) key
        = lookupStore store key) ∧
    -- (4) the dense scatter: only the local column changes, from the slice
    (∀ s2 e2 (info : SubjacInfo) m, info.cols = none → info.val = .dense m →
      m.length = e2 - s2 →
      ∃ m', subjac_set_col (icol - start) (slice column s2 e2) info
          = { info with val := .dense m' } ∧
        m'.length = m.length ∧
        ∀ r, r < m.length → ∀ c d,
          (m'.getD r []).getD c d
            = if c = icol - start ∧ c < (m.getD r []).length
              then column.getD (s2 + r) 0
              else (m.getD r []).getD c d) ∧
    -- (5) the COO scatter: only positions whose stored col is the local
    -- offset change, to the slice entry at their stored row
    (∀ s2 e2 (info : SubjacInfo) cs rs v, info.cols = some cs → info.rows = some rs →
      info.val = .flat v →
      (∀ k, k < v.length → rs.getD k 0 < e2 - s2) →
      ∃ v', subjac_set_col (icol - start) (slice column s2 e2) info
          = { info with val := .flat v' } ∧
        v'.length = v.length ∧
        ∀ k, k < v.length →
          v'.getD k 0 = if cs.getD k 0 = icol - start
            then column.getD (s2 + rs.getD k 0) 0
            else v.getD k 0) := by
  have hwrt : (col_varnames wrt_iter).getD ((col2name_ind wrt_iter).getD icol 0) "" = name := by
    have h1 := fillEnds_getD wrt_iter 0 0 icol j hcf hj
      (by rw [hget]; exact hlo) (by rw [hget]; exact hhi)
    rw [Nat.sub_zero] at h1
    unfold col2name_ind col_varnames
    rw [h1, Nat.zero_add, getD_map _ _ _ _ ("", 0, 0) hj, hget]
  have hoff : col_var_offset wrt_iter name = start :=
    col_var_offset_eq wrt_iter j name start en hnames hj hget
  have hsetcol : set_col wrt_iter of_iter store icol column
      = of_iter.foldl (set_col_step name (icol - start) column) store := by
    simp only [set_col]
    rw [hwrt, hoff]
  refine ⟨⟨hwrt, hoff⟩, ?_, ?_, ?_, ?_⟩
  · intro ofn s2 e2 hmem
    rw [hsetcol]
    exact foldl_set_col_mem of_iter name (icol - start) column store ofn s2 e2 hmem hofs
  · intro key hkey
    rw [hsetcol]
    exact foldl_set_col_untouched of_iter name (icol - start) column store key hkey
  · intro s2 e2 info m hc hv hlen
    obtain ⟨irows, icols, ival, ispars⟩ := info
    have hc' : icols = none := hc
    have hv' : ival = .dense m := hv
    subst hc'
    subst hv'
    refine ⟨mapWithIdx (fun r row =>
        row.set (icol - start) ((slice column s2 e2).getD r 0)) 0 m, ?_,
      mapWithIdx_length _ _ _, ?_⟩
    · rfl
    intro r hr c d
    rw [mapWithIdx_getD _ 0 r m [] [] hr, Nat.zero_add, getD_set]
    have hsl : (slice column s2 e2).getD r 0 = column.getD (s2 + r) 0 := by
      rw [slice_getD, if_pos (by omega)]
    rw [hsl]
  · intro s2 e2 info cs rs v hc hrw hv hrange
    obtain ⟨irows, icols, ival, ispars⟩ := info
    have hc' : icols = some cs := hc
    have hr' : irows = some rs := hrw
    have hv' : ival = .flat v := hv
    subst hc'
    subst hr'
    subst hv'
    refine ⟨mapWithIdx (fun k x =>
        if cs.getD k 0 = icol - start
        then (slice column s2 e2).getD (rs.getD k 0) 0 else x) 0 v, ?_,
      mapWithIdx_length _ _ _, ?_⟩
    · rfl
    intro k hk
    rw [mapWithIdx_getD _ 0 k v 0 0 hk, Nat.zero_add]
    by_cases hcs : cs.getD k 0 = icol - start
    · rw [if_pos hcs, if_pos hcs, slice_getD, if_pos (hrange k hk)]
    · rw [if_neg hcs, if_neg hcs]

/-- Witness for C3: a two-variable column space `x0:[0,2), x1:[2,3)`, one
output block `f:[0,2)`, global column 2 (local column 0 of `x1`), with a
declared COO sub-Jacobian for `(f, x1)`. -/
theorem set_col_spec_witness :
    lookupStore (set_col [("x0", 0, 2), ("x1", 2, 3)] [("f", 0, 2)]
        [(("f", "x1"), ⟨some [0], some [0], .flat [7], none⟩)] 2 [10, 20]) ("f", "x1")
      = some ⟨some [0], some [0], .flat [10], none⟩ := by
  have h := set_col_spec [("x0", 0, 2), ("x1", 2, 3)] [("f", 0, 2)]
      [(("f", "x1"), ⟨some [0], some [0], .flat [7], none⟩)] 2 [10, 20]
      1 "x1" 2 3
      ⟨rfl, by decide, rfl, by decide, trivial⟩
      (by decide) rfl (by decide) (by decide) (by decide) (by decide)
  have h2 := h.2.1 "f" 0 2 (by simp)
  rw [h2]
  rfl

/-! ## jacobian.py : _randomize_subjac

```
if isinstance(subjac, sparse_types):
    sparse = subjac.copy()
    sparse.data = self._randgen.random(sparse.data.size)
    sparse.data += 1.0
    return sparse
subjac_info = self._subjacs_info[key]
if 'sparsity' in subjac_info:
    rows, cols, shape = subjac_info['sparsity']
    r = np.zeros(shape)
    val = self._randgen.random(len(rows))
    val += 1.0
    r[rows, cols] = val
else:
    r = self._randgen.random(subjac.shape)
    r += 1.0
return r
```
The generator is modelled as a stream `g : Nat → ℚ`: `g k` is the k-th
sample of the single `random(...)` call the executed branch makes. -/

/-- `randgen.random(n)`: `n` samples of the stream. -/
def randList (g : Nat → ℚ) (n : Nat) : List ℚ :=
  (List.range n).map g

/-- `np.zeros(shape)`. -/
def zerosMat (r c : Nat) : List (List ℚ) :=
  List.replicate r (List.replicate c 0)

/-- Matrix entry with numpy-free out-of-range default `0`. -/
def entry (m : List (List ℚ)) (i j : Nat) : ℚ :=
  (m.getD i []).getD j 0

/-- Write one position. -/
def setRC (m : List (List ℚ)) (i j : Nat) (y : ℚ) : List (List ℚ) :=
  m.set i ((m.getD i []).set j y)

/-- `r[rows, cols] = val`: numpy fancy assignment, writes applied in order. -/
def assignCoords : List Nat → List Nat → List ℚ → List (List ℚ) → List (List ℚ)
  | r :: rs, c :: cs, x :: xs, m => assignCoords rs cs xs (setRC m r c x)
  | _, _, _, m => m

/-- `Jacobian._randomize_subjac` (`key` is assumed declared, as at its call
sites). -/
def randomize_subjac (store : SubjacStore) (key : String × String) (subjac : JVal)
    (g : Nat → ℚ) : JVal :=
  match subjac with
  | .sp data => .sp ((randList g data.length).map (fun x => x + 1))
  | _ =>
    match (lookupStore store key).bind (fun info => info.sparsity) with
    | some (rows, cols, shape) =>
        .dense (assignCoords rows cols
          ((randList g rows.length).map (fun x => x + 1)) (zerosMat shape.1 shape.2))
    | none =>
      match subjac with
      | .dense m =>
          .dense ((List.range m.length).map (fun i =>
            (List.range (m.headD []).length).map (fun jj =>
              g (i * (m.headD []).length + jj) + 1)))
      | .flat v => .flat ((randList g v.length).map (fun x => x + 1))
      | .sp data => .sp data

theorem getD_set_list (m : List (List ℚ)) (r : Nat) (row : List ℚ) (i : Nat) :
    (m.set r row).getD i [] = if r = i ∧ r < m.length then row else m.getD i [] := by
  rw [List.getD_eq_getElem?_getD, List.getElem?_set]
  by_cases hir : r = i
  · subst hir
    by_cases hlen : r < m.length
    · simp [hlen]
    · rw [if_pos rfl, if_neg hlen, if_neg (by tauto), List.getD_eq_getElem?_getD,
          List.getElem?_eq_none (by omega)]
  · rw [if_neg hir, if_neg (by tauto), List.getD_eq_getElem?_getD]

theorem entry_setRC_ne (m : List (List ℚ)) (r c : Nat) (x : ℚ) (i j : Nat)
    (h : ¬ (i = r ∧ j = c)) :
    entry (setRC m r c x) i j = entry m i j := by
  unfold setRC entry
  rw [getD_set_list]
  by_cases hir : r = i
  · by_cases hlen : r < m.length
    · rw [if_pos ⟨hir, hlen⟩, getD_set]
      subst hir
      rw [if_neg (by tauto)]
    · rw [if_neg (by tauto)]
  · rw [if_neg (by tauto)]

theorem entry_setRC_self (m : List (List ℚ)) (r c : Nat) (x : ℚ)
    (hi : r < m.length) (hj : c < (m.getD r []).length) :
    entry (setRC m r c x) r c = x := by
  unfold setRC entry
  rw [getD_set_list, if_pos ⟨rfl, hi⟩, getD_set, if_pos ⟨rfl, hj⟩]

theorem setRC_length (m : List (List ℚ)) (r c : Nat) (x : ℚ) :
    (setRC m r c x).length = m.length := by
  simp [setRC]

theorem setRC_row_length (m : List (List ℚ)) (r c : Nat) (x : ℚ) (i : Nat) :
    ((setRC m r c x).getD i []).length = (m.getD i []).length := by
  unfold setRC
  rw [getD_set_list]
  by_cases hir : r = i
  · by_cases hlen : r < m.length
    · rw [if_pos ⟨hir, hlen⟩]
      subst hir
      simp
    · rw [if_neg (by tauto)]
  · rw [if_neg (by tauto)]

theorem assignCoords_length (rs cs : List Nat) (xs : List ℚ) (m : List (List ℚ)) :
    (assignCoords rs cs xs m).length = m.length := by
  induction rs generalizing cs xs m with
  | nil => rfl
  | cons r rs ih =>
      cases cs with
      | nil => rfl
      | cons c cs =>
          cases xs with
          | nil => rfl
          | cons x xs =>
              simp only [assignCoords]
              rw [ih, setRC_length]

theorem assignCoords_row_length (rs cs : List Nat) (xs : List ℚ) (m : List (List ℚ))
    (i : Nat) :
    ((assignCoords rs cs xs m).getD i []).length = (m.getD i []).length := by
  induction rs generalizing cs xs m with
  | nil => rfl
  | cons r rs ih =>
      cases cs with
      | nil => rfl
      | cons c cs =>
          cases xs with
          | nil => rfl
          | cons x xs =>
              simp only [assignCoords]
              rw [ih, setRC_row_length]

theorem entry_assignCoords_not_mem (rs cs : List Nat) (xs : List ℚ)
    (m : List (List ℚ)) (i j : Nat) (h : (i, j) ∉ rs.zip cs) :
    entry (assignCoords rs cs xs m) i j = entry m i j := by
  induction rs generalizing cs xs m with
  | nil => rfl
  | cons r rs ih =>
      cases cs with
      | nil => rfl
      | cons c cs =>
          cases xs with
          | nil => rfl
          | cons x xs =>
              simp only [assignCoords]
              simp only [List.zip_cons_cons, List.mem_cons, not_or] at h
              rw [ih _ _ _ h.2, entry_setRC_ne]
              intro hc
              exact h.1 (by rw [hc.1, hc.2])

theorem entry_assignCoords_at (rs cs : List Nat) (xs : List ℚ) (m : List (List ℚ))
    (k : Nat) (hnd : (rs.zip cs).Nodup)
    (hlen1 : cs.length = rs.length) (hlen2 : xs.length = rs.length)
    (hk : k < rs.length)
    (hi : rs.getD k 0 < m.length)
    (hj : cs.getD k 0 < (m.getD (rs.getD k 0) []).length) :
    entry (assignCoords rs cs xs m) (rs.getD k 0) (cs.getD k 0) = xs.getD k 0 := by
  induction rs generalizing cs xs m k with
  | nil => simp at hk
  | cons r rs ih =>
      cases cs with
      | nil => simp at hlen1
      | cons c cs =>
          cases xs with
          | nil => simp at hlen2
          | cons x xs =>
              simp only [assignCoords]
              cases k with
              | zero =>
                  simp only [List.getD_cons_zero] at hi hj ⊢
                  simp only [List.zip_cons_cons, List.nodup_cons] at hnd
                  rw [entry_assignCoords_not_mem _ _ _ _ _ _ hnd.1]
                  exact entry_setRC_self m r c x hi hj
              | succ k =>
                  simp only [List.getD_cons_succ] at hi hj ⊢
                  simp only [List.zip_cons_cons, List.nodup_cons] at hnd
                  have hk' : k < rs.length := by simpa using hk
                  apply ih cs xs (setRC m r c x) k hnd.2 (by simpa using hlen1)
                    (by simpa using hlen2) hk'
                  · rw [setRC_length]
                    exact hi
                  · rw [setRC_row_length]
                    exact hj

theorem entry_zerosMat (nr nc i j : Nat) : entry (zerosMat nr nc) i j = 0 := by
  unfold entry zerosMat
  have houter : (List.replicate nr (List.replicate nc (0 : ℚ))).getD i ([] : List ℚ)
      = if i < nr then List.replicate nc 0 else [] := by
    rw [List.getD_eq_getElem?_getD, List.getElem?_replicate]
    by_cases h : i < nr
    · rw [if_pos h, if_pos h]
      rfl
    · rw [if_neg h, if_neg h]
      rfl
  rw [houter]
  by_cases h : i < nr
  · rw [if_pos h, List.getD_eq_getElem?_getD, List.getElem?_replicate]
    by_cases h2 : j < nc
    · rw [if_pos h2]
      rfl
    · rw [if_neg h2]
      rfl
  · rw [if_neg h]
    rfl

theorem zerosMat_row_length (nr nc i : Nat) (h : i < nr) :
    ((zerosMat nr nc).getD i []).length = nc := by
  unfold zerosMat
  rw [List.getD_eq_getElem?_getD, List.getElem?_replicate, if_pos h]
  simp

theorem rand_map_getD (g : Nat → ℚ) (n k : Nat) (hk : k < n) :
    ((randList g n).map (fun x => x + 1)).getD k 0 = g k + 1 := by
  unfold randList
  rw [List.map_map]
  exact getD_map_range _ _ hk

/-- **C4**: `_randomize_subjac` returns, when a `sparsity` `(rows, cols,
shape)` triple is recorded in the metadata, an array that is zero everywhere
except at the declared coordinates, where each value is `random() + 1.0`
(hence in `[1, 2)` and nonzero, preserving the zero structure exactly); with
no recorded sparsity a dense value is refilled entirely with
`random() + 1.0`, and a scipy sparse value gets every stored nonzero
refilled with `random() + 1.0`. -/
theorem randomize_subjac_spec (store : SubjacStore) (key : String × String)
    (subjac : JVal) (g : Nat → ℚ) (hg : ∀ i, 0 ≤ g i ∧ g i < 1) :
    -- recorded sparsity: exact zero structure, [1,2) values on the pattern
    (∀ info rows cols nr nc, lookupStore store key = some info →
      info.sparsity = some (rows, cols, (nr, nc)) →
      (∀ d, subjac ≠ .sp d) →
      cols.length = rows.length →
      (rows.zip cols).Nodup →
      (∀ k, k < rows.length → rows.getD k 0 < nr ∧ cols.getD k 0 < nc) →
      ∃ R, randomize_subjac store key subjac g = .dense R ∧
        R.length = nr ∧
        (∀ i, i < nr → (R.getD i []).length = nc) ∧
        (∀ i j, (i, j) ∉ rows.zip cols → entry R i j = 0) ∧
        (∀ k, k < rows.length →
          entry R (rows.getD k 0) (cols.getD k 0) = g k + 1 ∧
          1 ≤ entry R (rows.getD k 0) (cols.getD k 0) ∧
          entry R (rows.getD k 0) (cols.getD k 0) < 2)) ∧
    -- no sparsity, dense block: filled entirely with random() + 1 ∈ [1,2)
    (∀ info m, lookupStore store key = some info → info.sparsity = none →
      subjac = .dense m →
      ∃ R, randomize_subjac store key subjac g = .dense R ∧
        R.length = m.length ∧
        (∀ i, i < m.length → (R.getD i []).length = (m.headD []).length) ∧
        (∀ i j, i < m.length → j < (m.headD []).length →
          entry R i j = g (i * (m.headD []).length + j) + 1 ∧
          1 ≤ entry R i j ∧ entry R i j < 2)) ∧
    -- scipy sparse value: every stored nonzero refilled with random() + 1
    (∀ data, subjac = .sp data →
      ∃ d', randomize_subjac store key subjac g = .sp d' ∧
        d'.length = data.length ∧
        (∀ k, k < data.length →
          d'.getD k 0 = g k + 1 ∧ 1 ≤ d'.getD k 0 ∧ d'.getD k 0 < 2)) := by
  refine ⟨?_, ?_, ?_⟩
  · intro info rows cols nr nc hlk hsp hnsp hlen hnd hrange
    have heq : randomize_subjac store key subjac g
        = .dense (assignCoords rows cols
            ((randList g rows.length).map (fun x => x + 1)) (zerosMat nr nc)) := by
      cases subjac with
      | sp d => exact absurd rfl (hnsp d)
      | dense m => simp [randomize_subjac, hlk, hsp]
      | flat v => simp [randomize_subjac, hlk, hsp]
    refine ⟨_, heq, ?_, ?_, ?_, ?_⟩
    · rw [assignCoords_length]
      simp [zerosMat]
    · intro i hi
      rw [assignCoords_row_length]
      exact zerosMat_row_length nr nc i hi
    · intro i j hmem
      rw [entry_assignCoords_not_mem _ _ _ _ _ _ hmem, entry_zerosMat]
    · intro k hk
      have hval : entry (assignCoords rows cols
          ((randList g rows.length).map (fun x => x + 1)) (zerosMat nr nc))
          (rows.getD k 0) (cols.getD k 0) = g k + 1 := by
        rw [entry_assignCoords_at rows cols _ _ k hnd hlen (by simp [randList]) hk
              (by rw [show (zerosMat nr nc).length = nr by simp [zerosMat]]
                  exact (hrange k hk).1)
              (by rw [zerosMat_row_length nr nc _ (hrange k hk).1]
                  exact (hrange k hk).2)]
        exact rand_map_getD g rows.length k hk
      rcases hg k with ⟨hg0, hg1⟩
      exact ⟨hval, by rw [hval]; linarith, by rw [hval]; linarith⟩
  · intro info m hlk hsp hsub
    subst hsub
    have heq : randomize_subjac store key (.dense m) g
        = .dense ((List.range m.length).map (fun i =>
            (List.range (m.headD []).length).map (fun jj =>
              g (i * (m.headD []).length + jj) + 1))) := by
      simp [randomize_subjac, hlk, hsp]
    refine ⟨_, heq, by simp, ?_, ?_⟩
    · intro i hi
      rw [getD_map_range _ _ hi]
      simp
    · intro i j hi hj
      have hent : entry ((List.range m.length).map (fun i =>
          (List.range (m.headD []).length).map (fun jj =>
            g (i * (m.headD []).length + jj) + 1))) i j
          = g (i * (m.headD []).length + j) + 1 := by
        unfold entry
        rw [getD_map_range _ _ hi, getD_map_range _ _ hj]
      rcases hg (i * (m.headD []).length + j) with ⟨hg0, hg1⟩
      exact ⟨hent, by rw [hent]; linarith, by rw [hent]; linarith⟩
  · intro data hsub
    subst hsub
    refine ⟨_, rfl, by simp [randList], ?_⟩
    intro k hk
    have h := rand_map_getD g data.length k hk
    rcases hg k with ⟨hg0, hg1⟩
    exact ⟨h, by rw [h]; linarith, by rw [h]; linarith⟩

/-- Witness for C4: a concrete 2×2 recorded sparsity `rows = [0,1]`,
`cols = [1,0]` and the constant generator `1/2`. -/
theorem randomize_subjac_spec_witness :
    ∃ R, randomize_subjac
        [(("f", "x"), ⟨none, none, .dense [[0, 0], [0, 0]], some ([0, 1], [1, 0], (2, 2))⟩)]
        ("f", "x") (.dense [[0, 0], [0, 0]]) (fun _ => 1/2) = .dense R ∧
      entry R 0 1 = 1/2 + 1 ∧ entry R 0 0 = 0 := by
  have h := (randomize_subjac_spec
      [(("f", "x"), ⟨none, none, .dense [[0, 0], [0, 0]], some ([0, 1], [1, 0], (2, 2))⟩)]
      ("f", "x") (.dense [[0, 0], [0, 0]]) (fun _ => 1/2)
      (by intro i; norm_num)).1
      ⟨none, none, .dense [[0, 0], [0, 0]], some ([0, 1], [1, 0], (2, 2))⟩
      [0, 1] [1, 0] 2 2 rfl rfl (by simp) (by decide) (by decide) (by decide)
  rcases h with ⟨R, hR, _, _, hoff, hon⟩
  exact ⟨R, hR, (hon 0 (by decide)).1, hoff 0 0 (by decide)⟩

/-! ## petsc_vector.py : duplicate-excluding distributed norm and dot

```
def _init_dup_inds(self, system):
    if system.comm.size > 1:
        dup_inds = []
        for name, start, stop in self.ranges():
            owning_rank = system._owning_rank[name]
            if not abs2meta[name]['distributed'] and owning_rank != system.comm.rank:
                dup_inds.extend(range(start, stop))
        ...

def _get_nodup(self):
    if self._dup_inds.size > 0:
        self._dup_scratch[:] = self.asarray()
        self._dup_scratch[self._dup_inds] = 0.0
        return self._dup_scratch
    return self._get_data()

def get_norm(self):
    return self._comm.allreduce(np.sum(self._get_nodup() ** 2)) ** 0.5

def dot(self, vec):
    return self._comm.allreduce(np.dot(self._get_nodup(), vec._get_data()))
```
The flat data array is modelled at the granularity of its `ranges()` blocks:
one `PVar` per named range, carrying this vector's block and the incoming
vector's block (the latter used only by `dot`).  `allreduce` is the sum over
all processes. -/

/-- One named variable block held locally by a process. -/
structure PVar where
  name : String
  dist : Bool
  data : List ℚ
  vdata : List ℚ
deriving DecidableEq

/-- One process: its MPI rank, its local blocks, and `_dup_scratch`. -/
structure Proc where
  rank : Nat
  vars : List PVar
  scratch : List ℚ
deriving DecidableEq

/-- The distributed layout: all cooperating processes plus `_owning_rank`. -/
structure Layout where
  procs : List Proc
  owning : String → Nat

/-- The `_init_dup_inds` test: a block duplicates another process's data iff
its variable is not distributed and is owned by a different rank. -/
def isDup (owning : String → Nat) (r : Nat) (v : PVar) : Bool :=
  !v.dist && !(owning v.name == r)

/-- The scratch copy with every duplicated block zeroed. -/
def nodupArr (owning : String → Nat) (p : Proc) : List ℚ :=
  (p.vars.map (fun v =>
    if isDup owning p.rank v then List.replicate v.data.length 0 else v.data)).flatten

/-- `_get_nodup`: returns the de-duplicated array (writing the scratch
buffer when there are duplicated entries), never writing the data itself. -/
def get_nodup (owning : String → Nat) (p : Proc) : List ℚ × Proc :=
  if p.vars.any (fun v => isDup owning p.rank v) then
    ((nodupArr owning p), { p with scratch := nodupArr owning p })
  else
    ((p.vars.map (fun v => v.data)).flatten, p)

def sumSq (l : List ℚ) : ℚ := (l.map (fun x => x * x)).sum

def dotList (a b : List ℚ) : ℚ := (List.zipWith (fun x y => x * y) a b).sum

/-- The allreduce of `np.sum(self._get_nodup() ** 2)` (the argument of the
square root in `get_norm`). -/
def allreduce_sumsq (L : Layout) : ℚ :=
  (L.procs.map (fun p => sumSq (get_nodup L.owning p).1)).sum

/-- `dot`: the allreduce of `np.dot(self._get_nodup(), vec._get_data())`. -/
def allreduce_dot (L : Layout) : ℚ :=
  (L.procs.map (fun p =>
    dotList (get_nodup L.owning p).1 ((p.vars.map (fun v => v.vdata)).flatten))).sum

/-- The de-duplicated full vector: the concatenation over processes of the
locally owned blocks (distributed blocks and non-distributed blocks whose
owner is this rank), every replica excluded. -/
def dedup_full (L : Layout) : List ℚ :=
  (L.procs.map (fun p =>
    ((p.vars.filter (fun v => !(isDup L.owning p.rank v))).map (fun v => v.data)).flatten)).flatten

/-- The incoming vector restricted the same way (for `dot`). -/
def dedup_full_v (L : Layout) : List ℚ :=
  (L.procs.map (fun p =>
    ((p.vars.filter (fun v => !(isDup L.owning p.rank v))).map (fun v => v.vdata)).flatten)).flatten

/-- Number of non-distributed blocks named `nm` a process holds. -/
def countNonDist (p : Proc) (nm : String) : Nat :=
  ((p.vars.filter (fun v => !v.dist)).map (fun v => v.name)).count nm

/-- Number of blocks named `nm` that survive de-duplication, over all
processes ("how often the variable is counted"). -/
def keptCount (L : Layout) (nm : String) : Nat :=
  (L.procs.map (fun p =>
    ((p.vars.filter (fun v => !(isDup L.owning p.rank v))).filter
      (fun v => !v.dist && (v.name == nm))).length)).sum

theorem sumSq_append (a b : List ℚ) : sumSq (a ++ b) = sumSq a + sumSq b := by
  simp [sumSq]

theorem sumSq_flatten (l : List (List ℚ)) : sumSq l.flatten = (l.map sumSq).sum := by
  induction l with
  | nil => simp [sumSq]
  | cons a l ih => simp [List.flatten_cons, sumSq_append, ih]

theorem sumSq_replicate_zero (n : Nat) : sumSq (List.replicate n 0) = 0 := by
  induction n with
  | zero => simp [sumSq]
  | succ n ih =>
      simp only [List.replicate_succ, sumSq, List.map_cons, List.sum_cons]
      simp only [sumSq] at ih
      rw [ih]
      norm_num

theorem get_nodup_fst (owning : String → Nat) (p : Proc) :
    (get_nodup owning p).1 = nodupArr owning p := by
  unfold get_nodup
  split
  · rfl
  · rename_i h
    have hall : ∀ v ∈ p.vars, ¬ (isDup owning p.rank v = true) := by
      intro v hv hcontra
      exact h (List.any_eq_true.2 ⟨v, hv, hcontra⟩)
    show (p.vars.map (fun v => v.data)).flatten = nodupArr owning p
    unfold nodupArr
    congr 1
    apply List.map_congr_left
    intro v hv
    rw [if_neg (hall v hv)]

/-- `_get_nodup` never modifies the vector's own blocks or rank (only the
scratch buffer). -/
theorem get_nodup_frame (owning : String → Nat) (p : Proc) :
    ((get_nodup owning p).2).vars = p.vars ∧ ((get_nodup owning p).2).rank = p.rank := by
  unfold get_nodup
  split
  · exact ⟨rfl, rfl⟩
  · exact ⟨rfl, rfl⟩

/-- Zeroing the duplicated blocks drops them from the sum of squares. -/
theorem sumSq_nodupArr (owning : String → Nat) (p : Proc) :
    sumSq (nodupArr owning p)
      = ((p.vars.filter (fun v => !(isDup owning p.rank v))).map
          (fun v => sumSq v.data)).sum := by
  unfold nodupArr
  rw [sumSq_flatten, List.map_map]
  induction p.vars with
  | nil => rfl
  | cons v vs ih =>
      by_cases h : isDup owning p.rank v = true
      · simp only [List.map_cons, List.sum_cons, Function.comp, if_pos h,
          sumSq_replicate_zero, List.filter_cons]
        rw [ih]
        simp [h]
      · simp only [List.map_cons, List.sum_cons, Function.comp, if_neg h, List.filter_cons]
        rw [ih]
        simp [h]

theorem dotList_append (a b c d : List ℚ) (h : a.length = c.length) :
    dotList (a ++ b) (c ++ d) = dotList a c + dotList b d := by
  unfold dotList
  rw [List.zipWith_append _ _ _ _ _ h, List.sum_append]

theorem dotList_replicate_zero (n : Nat) (l : List ℚ) :
    dotList (List.replicate n 0) l = 0 := by
  induction n generalizing l with
  | zero => simp [dotList]
  | succ n ih =>
      cases l with
      | nil => simp [dotList]
      | cons x xs =>
          simp only [List.replicate_succ, dotList, List.zipWith_cons_cons, List.sum_cons]
          simp only [dotList] at ih
          rw [ih]
          norm_num

theorem flatten_map_length (f : PVar → List ℚ) (ws : List PVar) :
    ((ws.map f).flatten).length = (ws.map (fun v => (f v).length)).sum := by
  induction ws with
  | nil => rfl
  | cons v vs ih => simp [List.flatten_cons, ih]

/-- Blockwise dot product over a flat concatenation. -/
theorem dot_flatten_blocks (ws : List PVar)
    (hlen : ∀ v ∈ ws, v.vdata.length = v.data.length) :
    dotList ((ws.map (fun v => v.data)).flatten) ((ws.map (fun v => v.vdata)).flatten)
      = (ws.map (fun v => dotList v.data v.vdata)).sum := by
  induction ws with
  | nil => simp [dotList]
  | cons v vs ih =>
      simp only [List.map_cons, List.flatten_cons, List.sum_cons]
      rw [dotList_append _ _ _ _ (hlen v (by simp)).symm,
          ih (fun w hw => hlen w (by simp [hw]))]

/-- Zeroed duplicate blocks contribute nothing to the dot product. -/
theorem dot_nodup_aux (owning : String → Nat) (r : Nat) (vs : List PVar)
    (hlen : ∀ v ∈ vs, v.vdata.length = v.data.length) :
    dotList ((vs.map (fun v =>
        if isDup owning r v then List.replicate v.data.length 0 else v.data)).flatten)
        ((vs.map (fun v => v.vdata)).flatten)
      = ((vs.filter (fun v => !(isDup owning r v))).map
          (fun v => dotList v.data v.vdata)).sum := by
  induction vs with
  | nil => simp [dotList]
  | cons v vs ih =>
      simp only [List.map_cons, List.flatten_cons]
      have hfirstlen :
          (if isDup owning r v then List.replicate v.data.length (0 : ℚ) else v.data).length
            = v.vdata.length := by
        split <;> simp [hlen v (by simp)]
      rw [dotList_append _ _ _ _ hfirstlen, ih (fun w hw => hlen w (by simp [hw]))]
      by_cases h : isDup owning r v = true
      · rw [if_pos h, dotList_replicate_zero]
        simp [List.filter_cons, h]
      · rw [if_neg h]
        simp [List.filter_cons, h]

/-- A process whose rank does not own `nm` keeps no non-distributed block
named `nm`. -/
theorem filter_kept_named_zero (owning : String → Nat) (p : Proc) (nm : String)
    (hrank : p.rank ≠ owning nm) :
    ((p.vars.filter (fun v => !(isDup owning p.rank v))).filter
      (fun v => !v.dist && (v.name == nm))).length = 0 := by
  rw [List.length_eq_zero, List.filter_eq_nil_iff]
  intro v hv hpred
  rcases List.mem_filter.1 hv with ⟨_, hkept⟩
  simp only [isDup, Bool.not_and, Bool.not_not, Bool.or_eq_true, Bool.not_eq_true',
    beq_iff_eq] at hkept
  simp only [Bool.and_eq_true, Bool.not_eq_true', beq_iff_eq] at hpred
  rcases hkept with hdist | hown
  · rw [hpred.1] at hdist
    exact absurd hdist (by simp)
  · rw [hpred.2] at hown
    exact hrank hown.symm

/-- The owner keeps exactly its non-distributed blocks named `nm`. -/
theorem filter_kept_named_owner (owning : String → Nat) (p : Proc) (nm : String)
    (hrank : p.rank = owning nm) :
    ((p.vars.filter (fun v => !(isDup owning p.rank v))).filter
      (fun v => !v.dist && (v.name == nm))).length = countNonDist p nm := by
  unfold countNonDist
  rw [List.filter_filter]
  rw [List.count_eq_countP, List.countP_map, List.countP_eq_length_filter,
      List.filter_filter]
  congr 1
  apply List.filter_congr
  intro v _
  simp only [isDup, Bool.not_and, Bool.not_not, Function.comp]
  by_cases hd : v.dist = true
  · simp [hd]
  · simp only [Bool.not_eq_true] at hd
    by_cases hn : v.name = nm
    · simp [hd, hn, ← hrank]
    · simp [hd, hn]

/-- With distinct ranks, a variable owned by a process that holds it exactly
once survives de-duplication exactly once across all processes. -/
theorem keptCount_eq_one (owning : String → Nat) (procs : List Proc) (nm : String)
    (hranks : (procs.map (fun p => p.rank)).Nodup)
    (p0 : Proc) (hp0mem : p0 ∈ procs) (hp0rank : p0.rank = owning nm)
    (hp0count : countNonDist p0 nm = 1) :
    (procs.map (fun p =>
      ((p.vars.filter (fun v => !(isDup owning p.rank v))).filter
        (fun v => !v.dist && (v.name == nm))).length)).sum = 1 := by
  induction procs with
  | nil => cases hp0mem
  | cons q qs ih =>
      rcases List.nodup_cons.1 hranks with ⟨hq, hqs⟩
      simp only [List.map_cons, List.sum_cons]
      rcases List.mem_cons.1 hp0mem with heq | htail
      · subst heq
        rw [filter_kept_named_owner owning p0 nm hp0rank, hp0count]
        have htail0 : (qs.map (fun p =>
            ((p.vars.filter (fun v => !(isDup owning p.rank v))).filter
              (fun v => !v.dist && (v.name == nm))).length)).sum = 0 := by
          apply List.sum_eq_zero
          intro x hx
          rcases List.mem_map.1 hx with ⟨q', hq', rfl⟩
          apply filter_kept_named_zero
          intro hc
          apply hq
          show p0.rank ∈ qs.map (fun p => p.rank)
          rw [← hp0rank] at hc
          have hmm : q'.rank ∈ qs.map (fun p => p.rank) := List.mem_map_of_mem _ hq'
          rw [← hc]
          exact hmm
        rw [htail0]
      · have hqrank : q.rank ≠ owning nm := by
          intro hc
          apply hq
          have : p0.rank ∈ qs.map (fun p => p.rank) := List.mem_map_of_mem _ htail
          rw [hp0rank, ← hc] at this
          exact this
        rw [filter_kept_named_zero owning q nm hqrank, ih hqs htail]

/-- Blockwise dot product over the whole de-duplicated concatenation. -/
theorem dot_procs (owning : String → Nat) (procs : List Proc)
    (hvlen : ∀ p ∈ procs, ∀ v ∈ p.vars, v.vdata.length = v.data.length) :
    dotList
        ((procs.map (fun p => ((p.vars.filter (fun v => !(isDup owning p.rank v))).map
          (fun v => v.data)).flatten)).flatten)
        ((procs.map (fun p => ((p.vars.filter (fun v => !(isDup owning p.rank v))).map
          (fun v => v.vdata)).flatten)).flatten)
      = (procs.map (fun p => ((p.vars.filter (fun v => !(isDup owning p.rank v))).map
          (fun v => dotList v.data v.vdata)).sum)).sum := by
  induction procs with
  | nil => simp [dotList]
  | cons p ps ih =>
      simp only [List.map_cons, List.flatten_cons, List.sum_cons]
      have hp : ∀ v ∈ p.vars.filter (fun v => !(isDup owning p.rank v)),
          v.vdata.length = v.data.length :=
        fun v hv => hvlen p (by simp) v (List.mem_of_mem_filter hv)
      have hlenblk :
          (((p.vars.filter (fun v => !(isDup owning p.rank v))).map
            (fun v => v.data)).flatten).length
          = (((p.vars.filter (fun v => !(isDup owning p.rank v))).map
            (fun v => v.vdata)).flatten).length := by
        rw [flatten_map_length, flatten_map_length]
        congr 1
        apply List.map_congr_left
        intro v hv
        exact (hp v hv).symm
      rw [dotList_append _ _ _ _ hlenblk, dot_flatten_blocks _ hp,
          ih (fun q hq => hvlen q (by simp [hq]))]

/-- **C5**: for a distributed PETSc vector, the allreduce argument of
`get_norm()` equals the sum of squares of the de-duplicated full vector
(every locally held entry duplicating another process's owned variable
zeroed out in the scratch copy), so `get_norm()` — the square root of this
allreduce — equals the norm of the de-duplicated full vector, each variable
counted exactly once; `_get_nodup` never writes the vector's own data; and
`dot(vec)` analogously excludes self's duplicated entries from the global
sum of products. -/
theorem petsc_norm_dot_spec (L : Layout)
    (hvlen : ∀ p ∈ L.procs, ∀ v ∈ p.vars, v.vdata.length = v.data.length) :
    allreduce_sumsq L = sumSq (dedup_full L) ∧
    Real.sqrt ((allreduce_sumsq L : ℚ) : ℝ)
      = Real.sqrt ((sumSq (dedup_full L) : ℚ) : ℝ) ∧
    (∀ p, ((get_nodup L.owning p).2).vars = p.vars ∧
      ((get_nodup L.owning p).2).rank = p.rank) ∧
    allreduce_dot L = dotList (dedup_full L) (dedup_full_v L) ∧
    (∀ nm p0, (L.procs.map (fun p => p.rank)).Nodup → p0 ∈ L.procs →
      p0.rank = L.owning nm → countNonDist p0 nm = 1 → keptCount L nm = 1) := by
  have hsq : allreduce_sumsq L = sumSq (dedup_full L) := by
    unfold allreduce_sumsq dedup_full
    rw [sumSq_flatten, List.map_map]
    congr 1
    apply List.map_congr_left
    intro p _
    show sumSq (get_nodup L.owning p).1
        = sumSq (((p.vars.filter (fun v => !(isDup L.owning p.rank v))).map
            (fun v => v.data)).flatten)
    rw [get_nodup_fst, sumSq_nodupArr, sumSq_flatten, List.map_map]
    rfl
  refine ⟨hsq, by rw [hsq], get_nodup_frame L.owning, ?_, ?_⟩
  · unfold allreduce_dot
    have h1 : ∀ p ∈ L.procs,
        dotList (get_nodup L.owning p).1 ((p.vars.map (fun v => v.vdata)).flatten)
        = ((p.vars.filter (fun v => !(isDup L.owning p.rank v))).map
            (fun v => dotList v.data v.vdata)).sum := by
      intro p hp
      rw [get_nodup_fst]
      exact dot_nodup_aux L.owning p.rank p.vars (hvlen p hp)
    rw [List.map_congr_left h1]
    exact (dot_procs L.owning L.procs hvlen).symm
  · intro nm p0 hranks hmem hrank hcount
    exact keptCount_eq_one L.owning L.procs nm hranks p0 hmem hrank hcount

/-- Witness for C5: two processes, `a` owned by rank 0, `b` owned by rank 1
and replicated on rank 0. -/
theorem petsc_norm_dot_spec_witness :
    allreduce_sumsq
        ⟨[⟨0, [⟨"a", false, [3], [5]⟩, ⟨"b", false, [4], [6]⟩], []⟩,
          ⟨1, [⟨"b", false, [4], [6]⟩], []⟩],
         fun nm => if nm = "a" then 0 else 1⟩
      = sumSq (dedup_full
        ⟨[⟨0, [⟨"a", false, [3], [5]⟩, ⟨"b", false, [4], [6]⟩], []⟩,
          ⟨1, [⟨"b", false, [4], [6]⟩], []⟩],
         fun nm => if nm = "a" then 0 else 1⟩) ∧
    keptCount
        ⟨[⟨0, [⟨"a", false, [3], [5]⟩, ⟨"b", false, [4], [6]⟩], []⟩,
          ⟨1, [⟨"b", false, [4], [6]⟩], []⟩],
         fun nm => if nm = "a" then 0 else 1⟩ "b" = 1 := by
  have h := petsc_norm_dot_spec
      ⟨[⟨0, [⟨"a", false, [3], [5]⟩, ⟨"b", false, [4], [6]⟩], []⟩,
        ⟨1, [⟨"b", false, [4], [6]⟩], []⟩],
       fun nm => if nm = "a" then 0 else 1⟩
      (by decide)
  exact ⟨h.1, h.2.2.2.2 "b" ⟨1, [⟨"b", false, [4], [6]⟩], []⟩
    (by decide) (by decide) (by decide) (by decide)⟩

/-! ## Coloring quality threshold (min_improve_pct)

The bicoloring engine and its lifecycle manager are not among the provided
sources; only their test (`test_partial_color.py : test_partials_min_improvement`,
which expects the warning "Coloring was deactivated.  Improvement of 16.7%
was less than min allowed (20.0%)." followed by one solve per column and
`coloring = None`) is.  The decision step is therefore modelled from the
spec. -/

/-- A computed coloring: its color count and the number of columns of the
pattern it compresses. -/
structure Coloring where
  num_colors : Nat
  num_columns : Nat
deriving DecidableEq

/-- Modelled from the spec: "Reported metric:
`improvement_pct = 1 − num_colors / num_columns`". -/
def improvement_pct (c : Coloring) : ℚ :=
  1 - (c.num_colors : ℚ) / (c.num_columns : ℚ)

/-- A deactivation warning: the owning block's name/class and the measured
and required percentages. -/
structure ColWarning where
  block : String
  measured : ℚ
  required : ℚ
deriving DecidableEq

/-- Outcome of the lifecycle decision: the coloring stays active, or is
deactivated with a warning, or (for structural mismatches only) a fatal
error. -/
inductive ColoringOutcome where
  | active (c : Coloring)
  | deactivated (w : ColWarning)
  | fatal (msg : String)
deriving DecidableEq

/-- Modelled from the spec: "The caller compares this against a configured
minimum; if below threshold, the coloring is *deactivated* (a warning is
raised identifying the block by name/class and the measured vs. required
percentage) and evaluation reverts to one-color-per-column."  (§4.4; §7
classifies the shortfall as a warning, never an exception.) -/
def apply_min_improve (block : String) (min_improve_pct : ℚ) (c : Coloring) :
    ColoringOutcome :=
  if improvement_pct c < min_improve_pct then
    .deactivated ⟨block, improvement_pct c, min_improve_pct⟩
  else
    .active c

/-- Modelled from the spec: model runs per Jacobian evaluation after the
decision — one per color while active, one per column after deactivation
(the uncolored fallback). -/
def jac_eval_runs (outcome : ColoringOutcome) (num_columns : Nat) : Nat :=
  match outcome with
  | .active c => c.num_colors
  | .deactivated _ => num_columns
  | .fatal _ => 0

/-- Modelled from the spec: the coloring retained after the decision
(`comp._coloring_info.coloring` is `None` once deactivated). -/
def retained_coloring (outcome : ColoringOutcome) : Option Coloring :=
  match outcome with
  | .active c => some c
  | _ => none

/-- **C6**: whenever the computed coloring's improvement percentage
`1 − num_colors / num_columns` is below the configured `min_improve_pct`,
the coloring is deactivated with a warning — not an exception — naming the
owning block and reporting both the measured and the required percentages,
and every subsequent Jacobian evaluation for the block performs exactly one
model run per column (`N` runs for `N` columns) with no coloring
retained. -/
theorem min_improve_deactivates (block : String) (minp : ℚ) (c : Coloring)
    (h : improvement_pct c < minp) :
    apply_min_improve block minp c
      = .deactivated ⟨block, improvement_pct c, minp⟩ ∧
    (∀ msg, apply_min_improve block minp c ≠ .fatal msg) ∧
    jac_eval_runs (apply_min_improve block minp c) c.num_columns = c.num_columns ∧
    retained_coloring (apply_min_improve block minp c) = none := by
  have heq : apply_min_improve block minp c
      = .deactivated ⟨block, improvement_pct c, minp⟩ := by
    unfold apply_min_improve
    rw [if_pos h]
  refine ⟨heq, ?_, ?_, ?_⟩
  · intro msg
    rw [heq]
    intro hc
    cases hc
  · rw [heq]
    rfl
  · rw [heq]
    rfl

/-- Witness for C6 at the test's numbers: 5 colors for 6 columns
(improvement 1/6 ≈ 16.7%), minimum 1/5 (20%). -/
theorem min_improve_deactivates_witness :
    improvement_pct ⟨5, 6⟩ < 1/5 ∧
    (apply_min_improve "comp" (1/5) ⟨5, 6⟩
        = .deactivated ⟨"comp", improvement_pct ⟨5, 6⟩, 1/5⟩ ∧
      (∀ msg, apply_min_improve "comp" (1/5) ⟨5, 6⟩ ≠ .fatal msg) ∧
      jac_eval_runs (apply_min_improve "comp" (1/5) ⟨5, 6⟩) 6 = 6 ∧
      retained_coloring (apply_min_improve "comp" (1/5) ⟨5, 6⟩) = none) := by
  have h : improvement_pct ⟨5, 6⟩ < 1/5 := by
    unfold improvement_pct
    norm_num
  exact ⟨h, min_improve_deactivates "comp" (1/5) ⟨5, 6⟩ h⟩

/-- **C10**: `ValueRepeater.__getitem__` raises `IndexError` iff `idx ≥ size`;
in particular every negative `idx` (including `idx < -size`) returns `val`
without error, because the bounds check only compares against the upper bound
after adding `size` once to a negative index. -/
theorem ValueRepeater_getitem_spec {α : Type} (vr : ValueRepeater α) (idx : Int) :
    (vr.getitem idx).toOption = if idx < (vr.size : Int) then some vr.val else none := by
  unfold ValueRepeater.getitem
  rcases lt_or_ge idx 0 with h | h
  · rw [if_pos h]
    have h1 : ¬ (idx + (vr.size : Int) ≥ (vr.size : Int)) := by omega
    rw [if_neg h1, if_pos (by omega : idx < (vr.size : Int))]
    rfl
  · rw [if_neg (by omega : ¬ idx < 0)]
    rcases le_or_lt (vr.size : Int) idx with h2 | h2
    · rw [if_pos (by omega : idx ≥ (vr.size : Int)),
         if_neg (by omega : ¬ idx < (vr.size : Int))]
      rfl
    · rw [if_neg (by omega : ¬ idx ≥ (vr.size : Int)), if_pos h2]
      rfl

end OpenMDAO
